import Mathlib

/-!
Verification of the Filecoin-docs link-checker core against its specification.

The TypeScript sources under `scripts/checkers` are shallowly embedded:
pure helpers become Lean functions on `String`/`List Char`, the filesystem
becomes an explicit list of existing paths (for existence checks) or an
association list from paths to file contents (for read/write), and
JavaScript exceptions become `Option` results.  JavaScript `number` scores
(always of the form `1 - d/m` for small naturals `d`, `m`) are modelled by
`ℚ`; for the comparisons the code performs (`> 0.5` and sign of a
difference) the rational and double-precision values agree on all inputs
whose strings are far below `2^50` characters.  `String.prototype.toLowerCase`
is modelled per character on the ASCII range, which is the only range that
survives the slug filter and the only one the path comparisons rely on.
-/

/-! ## JavaScript character primitives -/

/-- Numeric bound used when converting back from a code point. -/
theorem charOfNat_toNat {n : Nat} (h : n < 55296) : (Char.ofNat n).toNat = n := by
  have hv : n.isValidChar := Or.inl h
  rw [Char.ofNat, dif_pos hv]
  show (UInt32.mk (BitVec.ofNatLt n _)).toNat = n
  rfl

/-- Per-character model of `String.prototype.toLowerCase` (ASCII range). -/
def toLowerChar (c : Char) : Char :=
  if 65 ≤ c.toNat ∧ c.toNat ≤ 90 then Char.ofNat (c.toNat + 32) else c

/-- Bounded comparison on naturals, as a boolean. -/
def between (lo hi n : Nat) : Bool :=
  Nat.ble lo n && Nat.ble n hi

/-- The regex class `\w`: ASCII letters, digits and underscore. -/
def isWordChar (c : Char) : Bool :=
  between 97 122 c.toNat || between 65 90 c.toNat || between 48 57 c.toNat || c == '_'

/-- The regex class `\s` of JavaScript (ECMAScript WhiteSpace ∪ LineTerminator). -/
def isJsSpace (c : Char) : Bool :=
  let n := c.toNat
  n == 9 || n == 10 || n == 11 || n == 12 || n == 13 || n == 32 ||
  n == 160 || n == 5760 || between 8192 8202 n || n == 8232 ||
  n == 8233 || n == 8239 || n == 8287 || n == 12288 || n == 65279

/-- One character is a hyphen. -/
def isHyphen (c : Char) : Bool :=
  c == '-'

/-! ## `generateAnchorId` (parsers/markdown.ts)

lowercase, strip `[^\w\s-]`, map runs of `\s` to `-`, collapse runs of `-`,
then strip one leading and one trailing `-` (regex `^-` or `-$`, global). -/

/-- Characters kept by `replace(/[^\w\s-]/g, '')`. -/
def slugKeep (c : Char) : Bool :=
  isWordChar c || isJsSpace c || c == '-'

/-- Replace every maximal run of characters satisfying `p` by the single
character `rep`; the boolean records whether the previous character was in
a run (i.e. the run is already represented). -/
def collapseAux (p : Char → Bool) (rep : Char) : Bool → List Char → List Char
  | _, [] => []
  | inRun, c :: cs =>
    if p c then
      if inRun then collapseAux p rep true cs
      else rep :: collapseAux p rep true cs
    else c :: collapseAux p rep false cs

/-- `replace(/X+/g, rep)` for a character class `X`. -/
def collapseRuns (p : Char → Bool) (rep : Char) (l : List Char) : List Char :=
  collapseAux p rep false l

/-- Drop a single leading hyphen, if present. -/
def dropOneLeadHyphen : List Char → List Char
  | [] => []
  | c :: cs => if c = '-' then cs else c :: cs

/-- `replace(/^-|-$/g, '')`: one leading and one trailing hyphen removed. -/
def trimEdgeHyphens (l : List Char) : List Char :=
  (dropOneLeadHyphen (dropOneLeadHyphen l).reverse).reverse

/-- The slug pipeline on character lists. -/
def slugChars (l : List Char) : List Char :=
  trimEdgeHyphens (collapseRuns isHyphen '-'
    (collapseRuns isJsSpace '-' (List.filter slugKeep (List.map toLowerChar l))))

/-- `generateAnchorId` from `link-checker/parsers/markdown.ts`. -/
def generateAnchorId (s : String) : String :=
  String.mk (slugChars s.data)

/-! ### Slug idempotence lemmas -/

/-- No two adjacent hyphens. -/
def noHyphenPair (a b : Char) : Prop :=
  ¬(a = '-' ∧ b = '-')

theorem toLowerChar_fixed (c : Char) : toLowerChar (toLowerChar c) = toLowerChar c := by
  unfold toLowerChar
  by_cases h : 65 ≤ c.toNat ∧ c.toNat ≤ 90
  · rw [if_pos h]
    have hn : (Char.ofNat (c.toNat + 32)).toNat = c.toNat + 32 := charOfNat_toNat (by omega)
    have hno : ¬(65 ≤ (Char.ofNat (c.toNat + 32)).toNat ∧ (Char.ofNat (c.toNat + 32)).toNat ≤ 90) := by
      rw [hn]; omega
    rw [if_neg hno]
  · rw [if_neg h, if_neg h]

theorem map_toLowerChar_id (l : List Char) (h : ∀ c ∈ l, toLowerChar c = c) :
    List.map toLowerChar l = l := by
  induction l with
  | nil => rfl
  | cons c cs ih =>
    simp only [List.map_cons]
    rw [h c (by simp), ih (fun d hd => h d (by simp [hd]))]

theorem collapseAux_cons (p : Char → Bool) (rep : Char) (b : Bool) (c : Char) (cs : List Char) :
    collapseAux p rep b (c :: cs) =
      if p c then
        if b then collapseAux p rep true cs else rep :: collapseAux p rep true cs
      else c :: collapseAux p rep false cs := rfl

theorem collapseAux_no_p (p : Char → Bool) (rep : Char) (b : Bool) (l : List Char)
    (h : ∀ c ∈ l, p c = false) : collapseAux p rep b l = l := by
  induction l generalizing b with
  | nil => rfl
  | cons c cs ih =>
    rw [collapseAux_cons, if_neg (by simp [h c (by simp)]),
      ih false (fun d hd => h d (by simp [hd]))]

theorem collapseAux_mem (p : Char → Bool) (rep : Char) (b : Bool) (l : List Char) :
    ∀ c ∈ collapseAux p rep b l, c = rep ∨ (c ∈ l ∧ p c = false) := by
  induction l generalizing b with
  | nil => intro c hc; simp [collapseAux] at hc
  | cons a as ih =>
    intro c hc
    rw [collapseAux_cons] at hc
    by_cases hp : p a
    · rw [if_pos hp] at hc
      cases b with
      | true =>
        rw [if_pos rfl] at hc
        rcases ih true c hc with h | h
        · exact Or.inl h
        · exact Or.inr ⟨by simp [h.1], h.2⟩
      | false =>
        rw [if_neg (by simp)] at hc
        rw [List.mem_cons] at hc
        rcases hc with hc | hc
        · exact Or.inl hc
        · rcases ih true c hc with h | h
          · exact Or.inl h
          · exact Or.inr ⟨by simp [h.1], h.2⟩
    · rw [if_neg hp, List.mem_cons] at hc
      rcases hc with hc | hc
      · subst hc; exact Or.inr ⟨by simp, by simpa using hp⟩
      · rcases ih false c hc with h | h
        · exact Or.inl h
        · exact Or.inr ⟨by simp [h.1], h.2⟩

theorem collapseAux_hyphen_chain (l : List Char) (b : Bool) :
    List.Chain' noHyphenPair (collapseAux isHyphen '-' b l) ∧
      (b = true → ∀ c, (collapseAux isHyphen '-' b l).head? = some c → c ≠ '-') := by
  induction l generalizing b with
  | nil => exact ⟨List.chain'_nil, by intro _ c hc; simp [collapseAux] at hc⟩
  | cons a as ih =>
    by_cases ha : a = '-'
    · subst ha
      cases b with
      | true =>
        rw [collapseAux_cons, if_pos (by simp [isHyphen]), if_pos rfl]
        exact ih true
      | false =>
        rw [collapseAux_cons, if_pos (by simp [isHyphen]), if_neg (by simp)]
        refine ⟨?_, by intro h; cases h⟩
        rcases ih true with ⟨hch, hhd⟩
        rw [List.chain'_cons']
        refine ⟨?_, hch⟩
        intro y hy
        exact fun hp => hhd rfl y hy hp.2
    · rw [collapseAux_cons, if_neg (by simp [isHyphen, ha])]
      rcases ih false with ⟨hch, _⟩
      constructor
      · rw [List.chain'_cons']
        exact ⟨fun y _ hp => ha hp.1, hch⟩
      · intro _ c hc
        simp only [List.head?_cons, Option.some.injEq] at hc
        subst hc; exact ha

theorem collapseAux_hyphen_id (l : List Char) (b : Bool)
    (hch : List.Chain' noHyphenPair l)
    (hhd : b = true → ∀ c, l.head? = some c → c ≠ '-') :
    collapseAux isHyphen '-' b l = l := by
  induction l generalizing b with
  | nil => rfl
  | cons a as ih =>
    by_cases ha : a = '-'
    · subst ha
      have hb : b = false := by
        cases b with
        | true => exact absurd rfl (hhd rfl '-' (by simp))
        | false => rfl
      subst hb
      rw [collapseAux_cons, if_pos (by simp [isHyphen]), if_neg (by simp)]
      rw [List.chain'_cons'] at hch
      rw [ih true hch.2 ?_]
      intro _ c hc
      intro hc'
      subst hc'
      exact hch.1 '-' hc ⟨rfl, rfl⟩
    · rw [collapseAux_cons, if_neg (by simp [isHyphen, ha])]
      rw [List.chain'_cons'] at hch
      rw [ih false hch.2 (by intro h; cases h)]

theorem dropOneLeadHyphen_head (l : List Char) (h : List.Chain' noHyphenPair l) :
    ∀ c, (dropOneLeadHyphen l).head? = some c → c ≠ '-' := by
  intro c hc
  match l with
  | [] => simp [dropOneLeadHyphen] at hc
  | a :: as =>
    by_cases ha : a = '-'
    · subst ha
      simp only [dropOneLeadHyphen, if_pos rfl] at hc
      rw [List.chain'_cons'] at h
      intro hc'
      subst hc'
      exact h.1 '-' hc ⟨rfl, rfl⟩
    · simp only [dropOneLeadHyphen, if_neg ha, List.head?_cons, Option.some.injEq] at hc
      subst hc; exact ha

theorem dropOneLeadHyphen_chain (l : List Char) (h : List.Chain' noHyphenPair l) :
    List.Chain' noHyphenPair (dropOneLeadHyphen l) := by
  match l with
  | [] => exact h
  | a :: as =>
    by_cases ha : a = '-'
    · subst ha
      simp only [dropOneLeadHyphen, if_pos rfl]
      exact h.tail
    · simpa [dropOneLeadHyphen, if_neg ha] using h

theorem dropOneLeadHyphen_mem (l : List Char) : ∀ c ∈ dropOneLeadHyphen l, c ∈ l := by
  intro c hc
  match l with
  | [] => simp [dropOneLeadHyphen] at hc
  | a :: as =>
    by_cases ha : a = '-'
    · subst ha
      rw [show dropOneLeadHyphen ('-' :: as) = as from rfl] at hc
      simp [hc]
    · simpa [dropOneLeadHyphen, if_neg ha] using hc

theorem dropOneLeadHyphen_getLast (l : List Char) (c : Char)
    (h : (dropOneLeadHyphen l).getLast? = some c) : l.getLast? = some c := by
  match l with
  | [] => simp [dropOneLeadHyphen] at h
  | a :: as =>
    by_cases ha : a = '-'
    · subst ha
      simp only [dropOneLeadHyphen, if_pos rfl] at h
      match as, h with
      | b :: bs, h => rw [List.getLast?_cons_cons]; exact h
    · rwa [dropOneLeadHyphen, if_neg ha] at h

theorem dropOneLeadHyphen_id (l : List Char) (h : ∀ c, l.head? = some c → c ≠ '-') :
    dropOneLeadHyphen l = l := by
  match l with
  | [] => rfl
  | a :: as =>
    have : a ≠ '-' := h a (by simp)
    simp [dropOneLeadHyphen, this]

theorem chain_noHyphenPair_reverse (l : List Char) (h : List.Chain' noHyphenPair l) :
    List.Chain' noHyphenPair l.reverse := by
  rw [List.chain'_reverse]
  exact h.imp (fun a b hab hc => hab ⟨hc.2, hc.1⟩)

theorem trimEdgeHyphens_props (l : List Char) (h : List.Chain' noHyphenPair l) :
    List.Chain' noHyphenPair (trimEdgeHyphens l) ∧
      (∀ c, (trimEdgeHyphens l).head? = some c → c ≠ '-') ∧
      (∀ c, (trimEdgeHyphens l).getLast? = some c → c ≠ '-') ∧
      (∀ c ∈ trimEdgeHyphens l, c ∈ l) := by
  have h1 : List.Chain' noHyphenPair (dropOneLeadHyphen l) := dropOneLeadHyphen_chain l h
  have h1h : ∀ c, (dropOneLeadHyphen l).head? = some c → c ≠ '-' := dropOneLeadHyphen_head l h
  have h2 : List.Chain' noHyphenPair (dropOneLeadHyphen l).reverse :=
    chain_noHyphenPair_reverse _ h1
  have h3 : List.Chain' noHyphenPair (dropOneLeadHyphen (dropOneLeadHyphen l).reverse) :=
    dropOneLeadHyphen_chain _ h2
  have h3h : ∀ c, (dropOneLeadHyphen (dropOneLeadHyphen l).reverse).head? = some c → c ≠ '-' :=
    dropOneLeadHyphen_head _ h2
  refine ⟨chain_noHyphenPair_reverse _ h3, ?_, ?_, ?_⟩
  · intro c hc
    rw [trimEdgeHyphens, List.head?_reverse] at hc
    have := dropOneLeadHyphen_getLast _ _ hc
    rw [List.getLast?_reverse] at this
    exact h1h c this
  · intro c hc
    rw [trimEdgeHyphens, List.getLast?_reverse] at hc
    exact h3h c hc
  · intro c hc
    rw [trimEdgeHyphens, List.mem_reverse] at hc
    have := dropOneLeadHyphen_mem _ c hc
    rw [List.mem_reverse] at this
    exact dropOneLeadHyphen_mem _ c this

theorem trimEdgeHyphens_id (l : List Char)
    (hh : ∀ c, l.head? = some c → c ≠ '-') (hl : ∀ c, l.getLast? = some c → c ≠ '-') :
    trimEdgeHyphens l = l := by
  rw [trimEdgeHyphens, dropOneLeadHyphen_id l hh, dropOneLeadHyphen_id, List.reverse_reverse]
  intro c hc
  rw [List.head?_reverse] at hc
  exact hl c hc

theorem slugChars_good (l : List Char) :
    (∀ c ∈ slugChars l, toLowerChar c = c ∧ slugKeep c = true ∧ isJsSpace c = false) ∧
      List.Chain' noHyphenPair (slugChars l) ∧
      (∀ c, (slugChars l).head? = some c → c ≠ '-') ∧
      (∀ c, (slugChars l).getLast? = some c → c ≠ '-') := by
  have hchain4 : List.Chain' noHyphenPair
      (collapseRuns isHyphen '-'
        (collapseRuns isJsSpace '-' (List.filter slugKeep (List.map toLowerChar l)))) :=
    (collapseAux_hyphen_chain _ false).1
  obtain ⟨htc, hth, htl, htm⟩ := trimEdgeHyphens_props _ hchain4
  refine ⟨?_, htc, hth, htl⟩
  intro c hc
  have hc4 := htm c hc
  rcases collapseAux_mem _ _ _ _ c hc4 with h4 | h4
  · subst h4; refine ⟨by decide, by decide, by decide⟩
  rcases collapseAux_mem _ _ _ _ c h4.1 with h3 | h3
  · subst h3; refine ⟨by decide, by decide, by decide⟩
  have hc2 := h3.1
  rw [List.mem_filter] at hc2
  obtain ⟨hc1, hkeep⟩ := hc2
  rw [List.mem_map] at hc1
  obtain ⟨d, _, hd⟩ := hc1
  refine ⟨?_, hkeep, h3.2⟩
  rw [← hd]
  exact toLowerChar_fixed d

theorem slugChars_idem (l : List Char) : slugChars (slugChars l) = slugChars l := by
  obtain ⟨hgood, hchain, hhead, hlast⟩ := slugChars_good l
  have h1 : List.map toLowerChar (slugChars l) = slugChars l :=
    map_toLowerChar_id _ (fun c hc => (hgood c hc).1)
  have h2 : List.filter slugKeep (slugChars l) = slugChars l :=
    List.filter_eq_self.mpr (fun c hc => (hgood c hc).2.1)
  have h3 : collapseRuns isJsSpace '-' (slugChars l) = slugChars l :=
    collapseAux_no_p _ _ _ _ (fun c hc => (hgood c hc).2.2)
  have h4 : collapseRuns isHyphen '-' (slugChars l) = slugChars l :=
    collapseAux_hyphen_id _ _ hchain (by intro h; cases h)
  have h5 : trimEdgeHyphens (slugChars l) = slugChars l := trimEdgeHyphens_id _ hhead hlast
  rw [slugChars, h1, h2, h3, h4, h5]

/-- C6: the slug generator is idempotent and maps "Hello, World!" to "hello-world". -/
theorem c6_generateAnchorId_idempotent :
    (∀ x : String, generateAnchorId (generateAnchorId x) = generateAnchorId x) ∧
      generateAnchorId "Hello, World!" = "hello-world" := by
  constructor
  · intro x
    show String.mk (slugChars (String.mk (slugChars x.data)).data) = String.mk (slugChars x.data)
    have : (String.mk (slugChars x.data)).data = slugChars x.data := rfl
    rw [this, slugChars_idem]
  · decide


/-! ## String prefix/suffix tests (JS `startsWith` / `endsWith`) -/

/-- The first list is a leading part of the second. -/
def leadsList : List Char → List Char → Bool
  | [], _ => true
  | _ :: _, [] => false
  | a :: as, b :: bs => a == b && leadsList as bs

/-- `String.prototype.startsWith`. -/
def strStartsWith (s pre : String) : Bool :=
  leadsList pre.data s.data

/-- `String.prototype.endsWith`. -/
def strEndsWith (s suf : String) : Bool :=
  leadsList suf.data.reverse s.data.reverse

/-! ## Node `path.posix` model

The checker runs on POSIX-style relative paths; `path.join`, `path.dirname`,
`path.extname`, `path.basename` and `path.relative` are modelled
segment-wise (`path.relative` against a root working directory, which is the
only case the checker exercises: both arguments are resolved against the
same cwd, so the result is cwd-independent for in-tree paths). -/

/-- Split a character list on a separator (JS `split` with one-char sep). -/
def splitOnCharAux (sep : Char) : List Char → List Char → List (List Char)
  | cur, [] => [cur.reverse]
  | cur, c :: cs =>
    if c = sep then cur.reverse :: splitOnCharAux sep [] cs
    else splitOnCharAux sep (c :: cur) cs

/-- `String.prototype.split` with a one-character separator. -/
def splitStr (s : String) (sep : Char) : List String :=
  (splitOnCharAux sep [] s.data).map String.mk

/-- Join string parts with `/`. -/
def joinWithSlash : List String → String
  | [] => ""
  | [x] => x
  | x :: xs => x ++ "/" ++ joinWithSlash xs

/-- Join string parts with a newline (inverse of line splitting). -/
def joinWithNewline : List String → String
  | [] => ""
  | [x] => x
  | x :: xs => x ++ "\n" ++ joinWithNewline xs

/-- Drop the first `n` characters. -/
def strDrop (s : String) (n : Nat) : String :=
  String.mk (s.data.drop n)

/-- Drop the last `n` characters. -/
def strDropRight (s : String) (n : Nat) : String :=
  String.mk (s.data.take (s.data.length - n))

/-- Segment-level normalization of `path.normalize`: resolve `.` and `..`;
`acc` is kept reversed. -/
def normSegsAux (isAbs : Bool) : List String → List String → List String
  | acc, [] => acc.reverse
  | acc, t :: ts =>
    if t = ".." then
      match acc with
      | h :: rest => if h = ".." then normSegsAux isAbs (".." :: acc) ts else normSegsAux isAbs rest ts
      | [] => if isAbs then normSegsAux isAbs [] ts else normSegsAux isAbs [".."] ts
    else normSegsAux isAbs (t :: acc) ts

/-- `path.posix.normalize` (trailing-slash preservation included). -/
def pathNormalize (s : String) : String :=
  let isAbs := strStartsWith s "/"
  let hasTrail := strEndsWith s "/"
  let parts := (splitStr s '/').filter (fun t => t ≠ "" && t ≠ ".")
  let resolved := normSegsAux isAbs [] parts
  let body := joinWithSlash resolved
  let result := if isAbs then "/" ++ body else body
  if result = "" then (if isAbs then "/" else ".")
  else if hasTrail && body ≠ "" && result ≠ "/" then result ++ "/" else result

/-- `path.posix.join` on a list of segments. -/
def pathJoinList (segs : List String) : String :=
  let nonempty := segs.filter (fun t => t ≠ "")
  if nonempty = [] then "." else pathNormalize (joinWithSlash nonempty)

/-- `joinPaths` from `shared/file-utils.ts` (two segments; the backslash
replacement is the identity on POSIX paths). -/
def joinPaths (a b : String) : String :=
  pathJoinList [a, b]

/-- `joinPaths` with three segments. -/
def joinPaths3 (a b c : String) : String :=
  pathJoinList [a, b, c]

/-- `path.posix.dirname`. -/
def pathDirname (s : String) : String :=
  let rcs := s.data.reverse
  let r1 := rcs.dropWhile (fun c => c == '/')
  let r2 := r1.dropWhile (fun c => c != '/')
  match r2 with
  | [] => if strStartsWith s "/" then "/" else "."
  | _ :: rest =>
    let res := String.mk rest.reverse
    if res = "" then "/" else res

/-- `path.posix.basename` (no extension argument). -/
def pathBasename (s : String) : String :=
  String.mk (((s.data.reverse.dropWhile (fun c => c == '/')).takeWhile (fun c => c != '/')).reverse)

/-- `path.posix.extname`. -/
def pathExtname (s : String) : String :=
  let bn := (s.data.reverse.takeWhile (fun c => c != '/')).reverse
  let preRev := bn.reverse.takeWhile (fun c => c != '.')
  if preRev.length = bn.length then ""
  else
    let idx := bn.length - 1 - preRev.length
    if idx = 0 then "" else String.mk (bn.drop idx)

/-- Resolve a possibly relative path against a root working directory,
returning its segments (`path.resolve` with cwd `/`). -/
def resolveSegs (s : String) : List String :=
  ((splitStr s '/').filter (fun t => t ≠ "" && t ≠ ".")).foldl
    (fun acc t => if t = ".." then acc.dropLast else acc ++ [t]) []

/-- Drop the common prefix of two segment lists. -/
def dropCommonSegs : List String → List String → List String × List String
  | a :: as, b :: bs => if a = b then dropCommonSegs as bs else (a :: as, b :: bs)
  | as, bs => (as, bs)

/-- `path.posix.relative` for paths resolved against the same cwd. -/
def pathRelative (f t : String) : String :=
  let p := dropCommonSegs (resolveSegs f) (resolveSegs t)
  joinWithSlash (p.1.map (fun _ => "..") ++ p.2)

/-! ## `shared/file-utils.ts` helpers -/

/-- Existence check: the filesystem is the list of existing file paths. -/
def fileExists (fs : List String) (p : String) : Bool :=
  fs.contains p

/-- `normalizePath`: backslashes to slashes, strip trailing slashes, strip
one leading `./`. -/
def normalizePath (s : String) : String :=
  let s1 := String.mk (s.data.map (fun c => if c = '\\' then '/' else c))
  let s2 := String.mk (s1.data.reverse.dropWhile (fun c => c == '/')).reverse
  if strStartsWith s2 "./" then strDrop s2 2 else s2

/-- `getDirectory` from `shared/file-utils.ts`. -/
def getDirectory (s : String) : String :=
  pathDirname s

/-- `getBasename(filePath, true)`: the basename with its extension. -/
def getBasenameExt (s : String) : String :=
  pathBasename s

/-- `replace(/^\x2f/, '')`: one leading slash removed. -/
def dropLeadSlash (s : String) : String :=
  if strStartsWith s "/" then strDrop s 1 else s

/-- `replace(/\.md$/, '')`: one trailing `.md` removed. -/
def dropMdSuffix (s : String) : String :=
  if strEndsWith s ".md" then strDropRight s 3 else s

/-! ## Redirect table (`shared/gitbook-yaml.ts`) -/

/-- One parsed entry of the `redirects:` block. -/
structure RedirectEntry where
  «from» : String
  «to» : String
  line : Nat
deriving DecidableEq

/-- JavaScript `Map.get` (last `set` wins). -/
def mapGet : List (String × String) → String → Option String
  | [], _ => none
  | (a, v) :: rest, k =>
    match mapGet rest k with
    | some r => some r
    | none => if a = k then some v else none

/-- The in-memory redirect table: entry list plus the `from → to` index. -/
structure RedirectMap where
  entries : List RedirectEntry
  fromToMap : List (String × String)
  toFromMap : List (String × List String)
deriving DecidableEq

/-- `findRedirectTarget` from `shared/gitbook-yaml.ts`. -/
def findRedirectTarget (redirectMap : RedirectMap) (fromPath : String) : Option String :=
  match mapGet redirectMap.fromToMap fromPath with
  | some t => some t
  | none =>
    match mapGet redirectMap.fromToMap (dropLeadSlash fromPath) with
    | some t => some t
    | none =>
      match mapGet redirectMap.fromToMap (dropMdSuffix fromPath) with
      | some t => some t
      | none =>
        match mapGet redirectMap.fromToMap (dropMdSuffix (dropLeadSlash fromPath)) with
        | some t => some t
        | none => none

/-- The four lookup keys of `findRedirectTarget`, in order. -/
def redirectLookupKeys (p : String) : List String :=
  [p, dropLeadSlash p, dropMdSuffix p, dropMdSuffix (dropLeadSlash p)]

/-- The destination of the first present key, per the specification text. -/
def firstRedirectHit (redirectMap : RedirectMap) : List String → Option String
  | [] => none
  | k :: ks =>
    match mapGet redirectMap.fromToMap k with
    | some t => some t
    | none => firstRedirectHit redirectMap ks

/-- C7: `findRedirectTarget` tries exactly the four keys in order and
returns the destination of the first key present in the `from → to` index,
or none when no key is present. -/
theorem c7_findRedirectTarget_four_keys (redirectMap : RedirectMap) (p : String) :
    findRedirectTarget redirectMap p = firstRedirectHit redirectMap (redirectLookupKeys p) := rfl

/-! ## `decodeLink` / `cleanLinkPath` (shared/path-utils.ts, C10)

`decodeURIComponent` is modelled as a partial function returning `none`
exactly where the JavaScript built-in throws `URIError`: a `%` not followed
by two hex digits, or escape bytes that are not a valid strict UTF-8
encoding.  The `try { } catch { return link }` of `decodeLink` becomes the
`none` fallback. -/

/-- Hexadecimal digit value. -/
def hexVal (c : Char) : Option Nat :=
  let n := c.toNat
  if 48 ≤ n ∧ n ≤ 57 then some (n - 48)
  else if 97 ≤ n ∧ n ≤ 102 then some (n - 97 + 10)
  else if 65 ≤ n ∧ n ≤ 70 then some (n - 65 + 10)
  else none

/-- Phase 1 of `decodeURIComponent`: turn every `%HH` escape into a byte,
leaving other characters alone; `none` on a malformed escape. -/
def percentDecodeBytes : List Char → Option (List (Sum Char Nat))
  | [] => some []
  | '%' :: a :: b :: rest =>
    match hexVal a, hexVal b, percentDecodeBytes rest with
    | some h1, some h2, some r => some (Sum.inr (h1 * 16 + h2) :: r)
    | _, _, _ => none
  | '%' :: _ => none
  | c :: rest =>
    match percentDecodeBytes rest with
    | some r => some (Sum.inl c :: r)
    | none => none

/-- Phase 2: strict UTF-8 decoding of the escape bytes. -/
def utf8Decode : List (Sum Char Nat) → Option (List Char)
  | [] => some []
  | Sum.inl c :: rest =>
    match utf8Decode rest with
    | some r => some (c :: r)
    | none => none
  | Sum.inr b :: rest =>
    if b ≤ 0x7F then
      match utf8Decode rest with
      | some r => some (Char.ofNat b :: r)
      | none => none
    else if 0xC2 ≤ b ∧ b ≤ 0xDF then
      match rest with
      | Sum.inr b2 :: rest2 =>
        if 0x80 ≤ b2 ∧ b2 ≤ 0xBF then
          match utf8Decode rest2 with
          | some r => some (Char.ofNat ((b - 0xC0) * 64 + (b2 - 0x80)) :: r)
          | none => none
        else none
      | _ => none
    else if 0xE0 ≤ b ∧ b ≤ 0xEF then
      match rest with
      | Sum.inr b2 :: Sum.inr b3 :: rest2 =>
        if (if b = 0xE0 then 0xA0 else 0x80) ≤ b2 ∧ b2 ≤ (if b = 0xED then 0x9F else 0xBF) ∧
            0x80 ≤ b3 ∧ b3 ≤ 0xBF then
          match utf8Decode rest2 with
          | some r => some (Char.ofNat ((b - 0xE0) * 4096 + (b2 - 0x80) * 64 + (b3 - 0x80)) :: r)
          | none => none
        else none
      | _ => none
    else if 0xF0 ≤ b ∧ b ≤ 0xF4 then
      match rest with
      | Sum.inr b2 :: Sum.inr b3 :: Sum.inr b4 :: rest2 =>
        if (if b = 0xF0 then 0x90 else 0x80) ≤ b2 ∧ b2 ≤ (if b = 0xF4 then 0x8F else 0xBF) ∧
            0x80 ≤ b3 ∧ b3 ≤ 0xBF ∧ 0x80 ≤ b4 ∧ b4 ≤ 0xBF then
          match utf8Decode rest2 with
          | some r =>
            some (Char.ofNat ((b - 0xF0) * 262144 + (b2 - 0x80) * 4096 + (b3 - 0x80) * 64 + (b4 - 0x80)) :: r)
          | none => none
        else none
      | _ => none
    else none

/-- `decodeURIComponent`, `none` where the built-in throws. -/
def decodeURIComponentM (s : String) : Option String :=
  match percentDecodeBytes s.data with
  | none => none
  | some bs =>
    match utf8Decode bs with
    | none => none
    | some cs => some (String.mk cs)

/-- `decodeLink`: `try { return decodeURIComponent(link) } catch { return link }`. -/
def decodeLink (link : String) : String :=
  match decodeURIComponentM link with
  | some d => d
  | none => link

/-- One global replacement of the two-character escape `\\t` by `r`. -/
def replaceEscPair (t r : Char) : List Char → List Char
  | [] => []
  | '\\' :: c :: rest =>
    if c = t then r :: replaceEscPair t r rest
    else '\\' :: replaceEscPair t r (c :: rest)
  | c :: rest => c :: replaceEscPair t r rest

/-- The three Markdown-escape replacements of `cleanLinkPath`. -/
def mdUnescape (s : String) : String :=
  String.mk (replaceEscPair ' ' ' ' (replaceEscPair '#' '#' (replaceEscPair '_' '_' s.data)))

/-- `cleanLinkPath` from `shared/path-utils.ts`. -/
def cleanLinkPath (link : String) : String :=
  mdUnescape (decodeLink link)

/-- C10: `cleanLinkPath` is total — when percent-decoding fails (where the
JavaScript built-in would throw), the input string is used unchanged before
the Markdown-escape replacements are applied. -/
theorem c10_cleanLinkPath_total (link : String)
    (h : decodeURIComponentM link = none) : cleanLinkPath link = mdUnescape link := by
  unfold cleanLinkPath decodeLink
  rw [h]

/-- C10 witness: a malformed percent-encoding. -/
theorem c10_cleanLinkPath_total_witness :
    decodeURIComponentM "100%" = none ∧ cleanLinkPath "100%" = mdUnescape "100%" :=
  ⟨by rfl, c10_cleanLinkPath_total "100%" (by rfl)⟩

/-! ## `resolveRelativeLink` (shared/path-utils.ts, C2) -/

/-- Result of link resolution. -/
structure ResolvedPath where
  resolved : String
  «exists» : Bool
  original : String
  anchor : Option String
deriving DecidableEq

/-- Strip the `#fragment` of a link target: the part before the first `#`. -/
def targetBeforeHash (linkTarget : String) : String :=
  String.mk (linkTarget.data.takeWhile (fun c => c != '#'))

/-- The `#fragment` of a link target, when present. -/
def anchorOfTarget (linkTarget : String) : Option String :=
  let pre := linkTarget.data.takeWhile (fun c => c != '#')
  if pre.length = linkTarget.data.length then none
  else some (String.mk (linkTarget.data.drop (pre.length + 1)))

/-- The resolution before the extension/README fallback: normalize, then
either root-relative (leading `/`) or joined onto the source directory. -/
def resolveBase (sourceFile targetStr : String) : String :=
  let target := normalizePath targetStr
  let resolved0 :=
    if strStartsWith target "/" then strDrop target 1
    else joinPaths (pathDirname sourceFile) target
  normalizePath resolved0

/-- The `.md` / `README.md` fallback: the first alternative existing on disk
becomes the resolved path, otherwise the original resolution is kept. -/
def resolveFallback (fs : List String) (projectRoot resolved : String) : String :=
  if fileExists fs (joinPaths projectRoot resolved ++ ".md") then resolved ++ ".md"
  else if fileExists fs (joinPaths (joinPaths projectRoot resolved) "README.md") then
    joinPaths resolved "README.md"
  else resolved

/-- `resolveRelativeLink` from `shared/path-utils.ts`: the fallback is
guarded by `!resolved.endsWith('.md') && !resolved.includes('.')`. -/
def resolveRelativeLink (fs : List String) (sourceFile linkTarget projectRoot : String) :
    ResolvedPath :=
  let targetStr := targetBeforeHash linkTarget
  let anchor := anchorOfTarget linkTarget
  if targetStr = "" then
    { resolved := sourceFile, «exists» := fileExists fs (joinPaths projectRoot sourceFile),
      original := linkTarget, anchor := anchor }
  else
    let resolved1 := resolveBase sourceFile targetStr
    let resolved2 :=
      if !strEndsWith resolved1 ".md" && !resolved1.data.contains '.' then
        resolveFallback fs projectRoot resolved1
      else resolved1
    { resolved := resolved2, «exists» := fileExists fs (joinPaths projectRoot resolved2),
      original := linkTarget, anchor := anchor }

/-- The claim's version of `resolveRelativeLink`: the fallback fires exactly
when the resolved path has no extension and no file exists at the exact
resolved path. -/
def resolveRelativeLinkClaimed (fs : List String) (sourceFile linkTarget projectRoot : String) :
    ResolvedPath :=
  let targetStr := targetBeforeHash linkTarget
  let anchor := anchorOfTarget linkTarget
  if targetStr = "" then
    { resolved := sourceFile, «exists» := fileExists fs (joinPaths projectRoot sourceFile),
      original := linkTarget, anchor := anchor }
  else
    let resolved1 := resolveBase sourceFile targetStr
    let resolved2 :=
      if pathExtname resolved1 = "" && !fileExists fs (joinPaths projectRoot resolved1) then
        resolveFallback fs projectRoot resolved1
      else resolved1
    { resolved := resolved2, «exists» := fileExists fs (joinPaths projectRoot resolved2),
      original := linkTarget, anchor := anchor }

/-- The amended description: the fallback fires exactly when the resolved
path contains no `.` character anywhere (whether or not a file exists at
the exact resolved path). -/
def resolveRelativeLinkAmended (fs : List String) (sourceFile linkTarget projectRoot : String) :
    ResolvedPath :=
  let targetStr := targetBeforeHash linkTarget
  let anchor := anchorOfTarget linkTarget
  if targetStr = "" then
    { resolved := sourceFile, «exists» := fileExists fs (joinPaths projectRoot sourceFile),
      original := linkTarget, anchor := anchor }
  else
    let resolved1 := resolveBase sourceFile targetStr
    let resolved2 :=
      if !resolved1.data.contains '.' then resolveFallback fs projectRoot resolved1
      else resolved1
    { resolved := resolved2, «exists» := fileExists fs (joinPaths projectRoot resolved2),
      original := linkTarget, anchor := anchor }

theorem leadsList_mem (p l : List Char) (h : leadsList p l = true) : ∀ c ∈ p, c ∈ l := by
  induction p generalizing l with
  | nil => intro c hc; cases hc
  | cons a as ih =>
    match l with
    | [] => cases h
    | b :: bs =>
      rw [leadsList, Bool.and_eq_true] at h
      have hab : a = b := by simpa using h.1
      intro c hc
      rw [List.mem_cons] at hc
      rcases hc with hc | hc
      · rw [hc, hab]; simp
      · exact List.mem_cons_of_mem b (ih bs h.2 c hc)

theorem endsWith_md_contains_dot (s : String) (h : strEndsWith s ".md" = true) :
    s.data.contains '.' = true := by
  have hm : '.' ∈ s.data.reverse := by
    have := leadsList_mem _ _ h '.'
    simp at this
    simpa using this
  rw [List.mem_reverse] at hm
  simpa using hm

/-- C2 counterexample: the source never checks existence at the exact
resolved path before trying the `.md` fallback.  With both `r/foo` and
`r/foo.md` on disk, the code resolves `foo` to `foo.md` although a file
exists at the exact resolved path, where the claim keeps `foo`. -/
theorem c2_resolveRelativeLink_counterexample :
    (resolveRelativeLink ["r/foo", "r/foo.md"] "a.md" "foo" "r").resolved = "foo.md" ∧
      (resolveRelativeLinkClaimed ["r/foo", "r/foo.md"] "a.md" "foo" "r").resolved = "foo" ∧
      fileExists ["r/foo", "r/foo.md"] (joinPaths "r" "foo") = true ∧
      resolveRelativeLink ["r/foo", "r/foo.md"] "a.md" "foo" "r" ≠
        resolveRelativeLinkClaimed ["r/foo", "r/foo.md"] "a.md" "foo" "r" := by
  refine ⟨by decide, by decide, by decide, by decide⟩

/-- C2 amended: the two fallbacks are tried exactly when the resolved path
contains no `.` character anywhere (regardless of whether a file exists at
the exact resolved path); the first fallback existing on disk becomes the
resolved path, otherwise the original resolution is kept. -/
theorem c2_resolveRelativeLink_amended (fs : List String)
    (sourceFile linkTarget projectRoot : String) :
    resolveRelativeLink fs sourceFile linkTarget projectRoot =
      resolveRelativeLinkAmended fs sourceFile linkTarget projectRoot := by
  unfold resolveRelativeLink resolveRelativeLinkAmended
  by_cases he : targetBeforeHash linkTarget = ""
  · simp [he]
  · simp only [if_neg he]
    by_cases hdot : '.' ∈ (resolveBase sourceFile (targetBeforeHash linkTarget)).data
    · simp [hdot]
    · have hmd : strEndsWith (resolveBase sourceFile (targetBeforeHash linkTarget)) ".md" = false := by
        by_contra hmd'
        have h1 : strEndsWith (resolveBase sourceFile (targetBeforeHash linkTarget)) ".md" = true := by
          simpa using hmd'
        have h2 := endsWith_md_contains_dot _ h1
        simp only [List.contains_eq_any_beq, List.any_eq_true, beq_iff_eq] at h2
        obtain ⟨x, hx, hx2⟩ := h2
        exact hdot (hx2 ▸ hx)
      simp [hdot, hmd]

/-! ## `validateLink` (link-checker/validators, C5) -/

/-- Link classification, assigned once at parse time. -/
inductive LinkType where
  | internal
  | external
  | anchorOnly
  | asset
deriving DecidableEq

/-- A parsed Markdown link. -/
structure ParsedLink where
  raw : String
  text : String
  target : String
  anchor : Option String
  line : Nat
  column : Nat
  type : LinkType
deriving DecidableEq

/-- Validation status. -/
inductive VStatus where
  | valid
  | broken
  | redirectAvailable
deriving DecidableEq

/-- The result of validating one link. -/
structure ValidationResult where
  sourceFile : String
  link : ParsedLink
  status : VStatus
  resolvedPath : Option String
  error : Option String
deriving DecidableEq

/-- `validateLink` from `link-checker/validators/link-validator.ts`. -/
def validateLink (fs : List String) (sourceFile : String) (link : ParsedLink)
    (projectRoot : String) (redirectMap : Option RedirectMap) : ValidationResult :=
  if link.type = LinkType.external then
    { sourceFile := sourceFile, link := link, status := .valid,
      resolvedPath := some link.target, error := none }
  else if link.type = LinkType.anchorOnly then
    { sourceFile := sourceFile, link := link, status := .valid,
      resolvedPath := some sourceFile, error := none }
  else
    let resolved := resolveRelativeLink fs sourceFile link.target projectRoot
    if resolved.«exists» then
      { sourceFile := sourceFile, link := link, status := .valid,
        resolvedPath := some resolved.resolved, error := none }
    else
      match redirectMap with
      | some m =>
        match findRedirectTarget m resolved.resolved with
        | some redirectTarget =>
          if fileExists fs (joinPaths projectRoot redirectTarget) then
            { sourceFile := sourceFile, link := link, status := .redirectAvailable,
              resolvedPath := some resolved.resolved,
              error := some ("Target not found: " ++ resolved.resolved ++
                ". Redirect available to: " ++ redirectTarget) }
          else
            { sourceFile := sourceFile, link := link, status := .broken,
              resolvedPath := some resolved.resolved,
              error := some ("Target not found: " ++ resolved.resolved) }
        | none =>
          { sourceFile := sourceFile, link := link, status := .broken,
            resolvedPath := some resolved.resolved,
            error := some ("Target not found: " ++ resolved.resolved) }
      | none =>
        { sourceFile := sourceFile, link := link, status := .broken,
          resolvedPath := some resolved.resolved,
          error := some ("Target not found: " ++ resolved.resolved) }

/-- C5: for an internal link whose resolved target does not exist, a
redirect-table hit on the resolved path with an existing destination gives
status `redirect-available`; when no redirect destination of the lookup
exists on disk, the status is `broken` with a non-empty error naming the
resolved (not raw) path. -/
theorem c5_validateLink_redirect_or_broken (fs : List String)
    (sourceFile projectRoot : String) (link : ParsedLink) (m : RedirectMap)
    (hty : link.type = LinkType.internal)
    (hne : (resolveRelativeLink fs sourceFile link.target projectRoot).«exists» = false) :
    (∀ d, mapGet m.fromToMap (resolveRelativeLink fs sourceFile link.target projectRoot).resolved
        = some d →
      fileExists fs (joinPaths projectRoot d) = true →
      (validateLink fs sourceFile link projectRoot (some m)).status = VStatus.redirectAvailable) ∧
    ((∀ d, findRedirectTarget m
          (resolveRelativeLink fs sourceFile link.target projectRoot).resolved = some d →
        fileExists fs (joinPaths projectRoot d) = false) →
      (validateLink fs sourceFile link projectRoot (some m)).status = VStatus.broken ∧
      (validateLink fs sourceFile link projectRoot (some m)).error =
        some ("Target not found: " ++
          (resolveRelativeLink fs sourceFile link.target projectRoot).resolved) ∧
      ("Target not found: " ++
          (resolveRelativeLink fs sourceFile link.target projectRoot).resolved) ≠ "") := by
  have hext : ¬link.type = LinkType.external := by rw [hty]; intro h; cases h
  have hanc : ¬link.type = LinkType.anchorOnly := by rw [hty]; intro h; cases h
  constructor
  · intro d hget hex
    have hfrt : findRedirectTarget m
        (resolveRelativeLink fs sourceFile link.target projectRoot).resolved = some d := by
      unfold findRedirectTarget
      rw [hget]
    unfold validateLink
    rw [if_neg hext, if_neg hanc]
    simp only [hne, Bool.false_eq_true, if_false, hfrt, hex, if_true]
  · intro hmiss
    unfold validateLink
    rw [if_neg hext, if_neg hanc]
    simp only [hne, Bool.false_eq_true, if_false]
    cases hfrt : findRedirectTarget m
        (resolveRelativeLink fs sourceFile link.target projectRoot).resolved with
    | none =>
      refine ⟨rfl, rfl, ?_⟩
      intro hemp
      have : ("Target not found: " ++
          (resolveRelativeLink fs sourceFile link.target projectRoot).resolved).data = [] := by
        rw [hemp]
      simp [String.data_append] at this
    | some d =>
      simp only [hmiss d hfrt, Bool.false_eq_true, if_false]
      refine ⟨trivial, trivial, ?_⟩
      intro hemp
      have : ("Target not found: " ++
          (resolveRelativeLink fs sourceFile link.target projectRoot).resolved).data = [] := by
        rw [hemp]
      simp [String.data_append] at this

/-- C5 witness: `docs/a.md → missing.md` with a redirect
`docs/missing.md → docs/found.md` whose destination exists. -/
theorem c5_validateLink_redirect_or_broken_witness :
    (⟨"[x](missing.md)", "x", "missing.md", none, 1, 1, LinkType.internal⟩ :
        ParsedLink).type = LinkType.internal ∧
    (resolveRelativeLink ["root/docs/found.md"] "docs/a.md" "missing.md" "root").«exists» = false ∧
    (validateLink ["root/docs/found.md"] "docs/a.md"
        ⟨"[x](missing.md)", "x", "missing.md", none, 1, 1, LinkType.internal⟩ "root"
        (some ⟨[⟨"docs/missing.md", "docs/found.md", 3⟩],
          [("docs/missing.md", "docs/found.md")], [("docs/found.md", ["docs/missing.md"])]⟩)).status
      = VStatus.redirectAvailable := by
  refine ⟨by decide, by decide, ?_⟩
  exact (c5_validateLink_redirect_or_broken ["root/docs/found.md"] "docs/a.md" "root"
    ⟨"[x](missing.md)", "x", "missing.md", none, 1, 1, LinkType.internal⟩
    ⟨[⟨"docs/missing.md", "docs/found.md", 3⟩], [("docs/missing.md", "docs/found.md")],
      [("docs/found.md", ["docs/missing.md"])]⟩
    (by decide) (by decide)).1 "docs/found.md" (by decide) (by decide)

/-! ## Fix-Suggestion Engine (link-checker/fixers, C1) -/

/-- Suggestion confidence tiers. -/
inductive Confidence where
  | high
  | medium
  | low
deriving DecidableEq

/-- A fix suggestion for one broken link. -/
structure FixSuggestion where
  confidence : Confidence
  suggestedPath : String
  reason : String
  redirectEntry : Option RedirectEntry
deriving DecidableEq

/-- Lowercase a whole string. -/
def jsToLower (s : String) : String :=
  String.mk (s.data.map toLowerChar)

/-- Levenshtein distance, as computed by `fastest-levenshtein`. -/
def levDist (a b : String) : Nat :=
  levenshtein Levenshtein.defaultCost a.data b.data

/-- Substring test: `String.prototype.includes`. -/
def listIncludes (sub : List Char) : List Char → Bool
  | [] => leadsList sub []
  | c :: cs => leadsList sub (c :: cs) || listIncludes sub cs

/-- `s.includes(sub)`. -/
def strIncludes (s sub : String) : Bool :=
  listIncludes sub.data s.data

/-- Executable non-negative fraction (`num / den`); the similarity scores
of the checker are always of this shape with a positive denominator.  The
JavaScript code compares IEEE doubles, which for these fraction values
agrees with exact comparison (the quantities differ by at least
`1 / (den₁ · den₂)`, far above double rounding error for any realistic
path length). -/
structure Frac where
  num : Nat
  den : Nat
deriving DecidableEq

/-- `x ≤ y` on fractions by cross multiplication. -/
def fracLe (x y : Frac) : Bool :=
  Nat.ble (x.num * y.den) (y.num * x.den)

/-- `x < y` on fractions by cross multiplication. -/
def fracLt (x y : Frac) : Bool :=
  Nat.blt (x.num * y.den) (y.num * x.den)

/-- The rational value of a fraction. -/
def fracVal (x : Frac) : ℚ :=
  (x.num : ℚ) / (x.den : ℚ)

/-- Stable insertion into a descending-by-key list (JS stable `sort` with
comparator `(a, b) => key b - key a`). -/
def insertDescFrac {α : Type} (key : α → Frac) (x : α) : List α → List α
  | [] => [x]
  | y :: ys => if fracLe (key x) (key y) then y :: insertDescFrac key x ys else x :: y :: ys

/-- Stable sort, descending by a fraction key. -/
def sortDescFrac {α : Type} (key : α → Frac) (l : List α) : List α :=
  l.foldl (fun acc x => insertDescFrac key x acc) []

/-- Stable insertion into an ascending-by-key list (JS stable `sort` with
comparator `(a, b) => key a - key b`). -/
def insertAscNat {α : Type} (key : α → Nat) (x : α) : List α → List α
  | [] => [x]
  | y :: ys => if key y ≤ key x then y :: insertAscNat key x ys else x :: y :: ys

/-- Stable sort, ascending by a natural key. -/
def sortAscNat {α : Type} (key : α → Nat) (l : List α) : List α :=
  l.foldl (fun acc x => insertAscNat key x acc) []

/-- `calculatePathSimilarity`: shared segment count over the longer path's
segment count. -/
def calculatePathSimilarity (path1 path2 : String) : Frac :=
  let segments1 := (splitStr path1 '/').filter (fun s => s ≠ "")
  let segments2 := (splitStr path2 '/').filter (fun s => s ≠ "")
  let commonCount := (segments1.filter (fun seg => segments2.contains seg)).length
  let totalSegments := max segments1.length segments2.length
  if totalSegments > 0 then ⟨commonCount, totalSegments⟩ else ⟨0, 1⟩

/-- Tier 1 inner loop of `findRedirectSuggestion`: first variation whose
redirect destination exists on disk wins with `high` confidence. -/
def redirectVariantLoop (fs : List String) (projectRoot : String) (m : RedirectMap)
    (brokenPath : String) : List String → Option FixSuggestion
  | [] => none
  | v :: vs =>
    match findRedirectTarget m v with
    | some redirectTarget =>
      if fileExists fs (joinPaths projectRoot redirectTarget) then
        some { confidence := .high, suggestedPath := redirectTarget,
               reason := "Redirect exists in .gitbook.yaml",
               redirectEntry := m.entries.find? (fun e => e.«from» == v || e.«from» == brokenPath) }
      else redirectVariantLoop fs projectRoot m brokenPath vs
    | none => redirectVariantLoop fs projectRoot m brokenPath vs

/-- `findRedirectSuggestion` from `link-checker/fixers/redirect-finder.ts`. -/
def findRedirectSuggestion (fs : List String) (projectRoot : String) (m : RedirectMap)
    (brokenPath : String) : Option FixSuggestion :=
  redirectVariantLoop fs projectRoot m brokenPath (redirectLookupKeys brokenPath)

/-- Tier 2: `findByBasename` (the `allFiles` parameter is the
once-per-batch `getAllFiles` cache). -/
def findByBasename (allFiles : List String) (brokenPath : String) : Option FixSuggestion :=
  let basename := getBasenameExt brokenPath
  let found := allFiles.filter (fun f => jsToLower (getBasenameExt f) == jsToLower basename)
  match found with
  | [m1] =>
    some { confidence := .medium, suggestedPath := m1,
           reason := "File with same name found in different location", redirectEntry := none }
  | _ :: _ :: _ =>
    let scored := sortDescFrac (fun p => p.2)
      (found.map (fun mt => (mt, calculatePathSimilarity brokenPath mt)))
    match scored with
    | [] => none
    | best :: _ =>
      if fracLt ⟨1, 2⟩ best.2 then
        some { confidence := .medium, suggestedPath := best.1,
               reason := "Similar file found (" ++ toString found.length ++
                 " candidates, best match selected)",
               redirectEntry := none }
      else none
  | [] => none

/-- Tier 3: `findBySimilarity`. -/
def findBySimilarity (allFiles : List String) (brokenPath : String) : Option FixSuggestion :=
  let maxDistance := min 10 (brokenPath.data.length * 3 / 10)
  let candidates := allFiles.filterMap (fun f =>
    let d := levDist (jsToLower brokenPath) (jsToLower f)
    if d ≤ maxDistance then some (f, d) else none)
  match sortAscNat (fun p => p.2) candidates with
  | [] => none
  | best :: _ =>
    if best.2 ≤ 5 then
      some { confidence := if best.2 ≤ 2 then .medium else .low, suggestedPath := best.1,
             reason := "Similar path found (edit distance: " ++ toString best.2 ++ ")",
             redirectEntry := none }
    else none

/-- Tier 4: `findByCaseVariation`. -/
def findByCaseVariation (allFiles : List String) (brokenPath : String) : Option FixSuggestion :=
  let lowerBroken := jsToLower brokenPath
  match allFiles.find? (fun f => jsToLower f == lowerBroken) with
  | some mt =>
    if mt ≠ brokenPath then
      some { confidence := .low, suggestedPath := mt,
             reason := "Case variation of path exists", redirectEntry := none }
    else none
  | none => none

/-- Tier 5 probe list: current, parent and grandparent directory. -/
def neighborProbes : List (String × String) :=
  [("./", "current directory"), ("../", "parent directory"), ("../../", "grandparent directory")]

/-- Tier 5 inner loop of `findNeighborReadme`. -/
def neighborLoop (fs : List String) (projectRoot sourceDir linkTarget : String) :
    List (String × String) → Option FixSuggestion
  | [] => none
  | (rel, desc) :: rest =>
    let resolvedTarget := normalizePath (pathJoinList [sourceDir, rel, "README.md"])
    if fileExists fs (joinPaths projectRoot resolvedTarget) then
      let suggestedLink := rel ++ "README.md"
      if suggestedLink ≠ linkTarget ∧ suggestedLink ≠ linkTarget ++ "README.md" then
        some { confidence := .low, suggestedPath := resolvedTarget,
               reason := "README.md found in " ++ desc, redirectEntry := none }
      else neighborLoop fs projectRoot sourceDir linkTarget rest
    else neighborLoop fs projectRoot sourceDir linkTarget rest

/-- Tier 5: `findNeighborReadme`. -/
def findNeighborReadme (fs : List String) (projectRoot : String) (broken : ValidationResult) :
    Option FixSuggestion :=
  let linkTarget := broken.link.target
  let isDirectoryLink :=
    strEndsWith linkTarget "/" ||
      (strStartsWith linkTarget "." && !strIncludes linkTarget ".md")
  if isDirectoryLink then
    neighborLoop fs projectRoot (getDirectory broken.sourceFile) linkTarget neighborProbes
  else none

/-- `broken.resolvedPath || broken.link.target` (JS falsy: `undefined` or
the empty string fall back to the raw target). -/
def brokenResolvedPath (broken : ValidationResult) : String :=
  match broken.resolvedPath with
  | some r => if r = "" then broken.link.target else r
  | none => broken.link.target

/-- `findFixSuggestion`: the five strategies in strict priority order. -/
def findFixSuggestion (fs allFiles : List String) (broken : ValidationResult)
    (projectRoot : String) (redirectMap : RedirectMap) : Option FixSuggestion :=
  let resolvedPath := brokenResolvedPath broken
  match findRedirectSuggestion fs projectRoot redirectMap resolvedPath with
  | some s => some s
  | none =>
    match findByBasename allFiles resolvedPath with
    | some s => some s
    | none =>
      match findBySimilarity allFiles resolvedPath with
      | some s => some s
      | none =>
        match findByCaseVariation allFiles resolvedPath with
        | some s => some s
        | none => findNeighborReadme fs projectRoot broken

theorem mapGet_findRedirectTarget (m : RedirectMap) (v d : String)
    (h : mapGet m.fromToMap v = some d) : findRedirectTarget m v = some d := by
  unfold findRedirectTarget
  rw [h]

theorem redirectVariantLoop_hit (fs : List String) (projectRoot : String) (m : RedirectMap)
    (brokenPath : String) (vl : List String)
    (h : ∃ v ∈ vl, ∃ d, mapGet m.fromToMap v = some d ∧
      fileExists fs (joinPaths projectRoot d) = true) :
    ∃ s, redirectVariantLoop fs projectRoot m brokenPath vl = some s ∧
      s.confidence = Confidence.high ∧
      ∃ v ∈ vl, findRedirectTarget m v = some s.suggestedPath ∧
        fileExists fs (joinPaths projectRoot s.suggestedPath) = true := by
  induction vl with
  | nil => obtain ⟨v, hv, _⟩ := h; cases hv
  | cons v vs ih =>
    cases hfrt : findRedirectTarget m v with
    | some t =>
      by_cases hex : fileExists fs (joinPaths projectRoot t) = true
      · have hloop : redirectVariantLoop fs projectRoot m brokenPath (v :: vs) =
            some { confidence := .high, suggestedPath := t,
                   reason := "Redirect exists in .gitbook.yaml",
                   redirectEntry :=
                     m.entries.find? (fun e => e.«from» == v || e.«from» == brokenPath) } := by
          unfold redirectVariantLoop
          simp only [hfrt]
          rw [if_pos hex]
        exact ⟨_, hloop, rfl, v, by simp, hfrt, hex⟩
      · have h' : ∃ v' ∈ vs, ∃ d, mapGet m.fromToMap v' = some d ∧
            fileExists fs (joinPaths projectRoot d) = true := by
          obtain ⟨v', hv', d, hd, hex'⟩ := h
          rw [List.mem_cons] at hv'
          rcases hv' with hv' | hv'
          · subst hv'
            rw [mapGet_findRedirectTarget m v' d hd] at hfrt
            cases hfrt
            exact absurd hex' hex
          · exact ⟨v', hv', d, hd, hex'⟩
        obtain ⟨s, hs, hconf, v', hv', hfrt', hex'⟩ := ih h'
        refine ⟨s, ?_, hconf, v', by simp [hv'], hfrt', hex'⟩
        unfold redirectVariantLoop
        simp only [hfrt]
        rw [if_neg hex, hs]
    | none =>
      have h' : ∃ v' ∈ vs, ∃ d, mapGet m.fromToMap v' = some d ∧
          fileExists fs (joinPaths projectRoot d) = true := by
        obtain ⟨v', hv', d, hd, hex'⟩ := h
        rw [List.mem_cons] at hv'
        rcases hv' with hv' | hv'
        · subst hv'
          rw [mapGet_findRedirectTarget m v' d hd] at hfrt
          cases hfrt
        · exact ⟨v', hv', d, hd, hex'⟩
      obtain ⟨s, hs, hconf, v', hv', hfrt', hex'⟩ := ih h'
      refine ⟨s, ?_, hconf, v', by simp [hv'], hfrt', hex'⟩
      unfold redirectVariantLoop
      simp only [hfrt]
      exact hs

/-- C1: when the broken path or one of its syntactic variants has a
redirect-table entry whose destination exists on disk, `findFixSuggestion`
returns the tier-1 suggestion — `high` confidence, suggested path the
looked-up redirect destination — and the result does not depend on the
file index consulted by the basename/similarity/case strategies, nor on
anything tier 5 probes. -/
theorem c1_redirect_tier_preempts (fs : List String) (projectRoot : String)
    (m : RedirectMap) (broken : ValidationResult)
    (h : ∃ v ∈ redirectLookupKeys (brokenResolvedPath broken), ∃ d,
      mapGet m.fromToMap v = some d ∧ fileExists fs (joinPaths projectRoot d) = true) :
    ∃ s, s.confidence = Confidence.high ∧
      (∃ v ∈ redirectLookupKeys (brokenResolvedPath broken),
        findRedirectTarget m v = some s.suggestedPath ∧
          fileExists fs (joinPaths projectRoot s.suggestedPath) = true) ∧
      findRedirectSuggestion fs projectRoot m (brokenResolvedPath broken) = some s ∧
      ∀ allFiles : List String, findFixSuggestion fs allFiles broken projectRoot m = some s := by
  obtain ⟨s, hs, hconf, hwit⟩ :=
    redirectVariantLoop_hit fs projectRoot m (brokenResolvedPath broken)
      (redirectLookupKeys (brokenResolvedPath broken)) h
  have hs2 : findRedirectSuggestion fs projectRoot m (brokenResolvedPath broken) = some s := hs
  refine ⟨s, hconf, hwit, hs2, ?_⟩
  intro allFiles
  unfold findFixSuggestion
  simp only [hs2]

/-- C1 witness: an exact redirect entry with an existing destination; a
same-basename file is also present, and the result is the redirect
suggestion whichever file index the lower tiers would scan. -/
theorem c1_redirect_tier_preempts_witness :
    (∃ v ∈ redirectLookupKeys (brokenResolvedPath
        ⟨"docs/a.md", ⟨"[x](old.md)", "x", "old.md", none, 1, 1, LinkType.internal⟩,
          VStatus.broken, some "docs/old.md", some "Target not found: docs/old.md"⟩), ∃ d,
      mapGet [("docs/old.md", "docs/new.md")] v = some d ∧
        fileExists ["root/docs/new.md", "root/other/old.md"] (joinPaths "root" d) = true) ∧
    findFixSuggestion ["root/docs/new.md", "root/other/old.md"] ["other/old.md"]
        ⟨"docs/a.md", ⟨"[x](old.md)", "x", "old.md", none, 1, 1, LinkType.internal⟩,
          VStatus.broken, some "docs/old.md", some "Target not found: docs/old.md"⟩
        "root"
        ⟨[⟨"docs/old.md", "docs/new.md", 3⟩], [("docs/old.md", "docs/new.md")], []⟩ =
      some ⟨Confidence.high, "docs/new.md", "Redirect exists in .gitbook.yaml",
        some ⟨"docs/old.md", "docs/new.md", 3⟩⟩ := by
  refine ⟨⟨"docs/old.md", by decide, "docs/new.md", by decide, by decide⟩, ?_⟩
  obtain ⟨s, hconf, hwit, hs, hall⟩ := c1_redirect_tier_preempts
    ["root/docs/new.md", "root/other/old.md"] "root"
    ⟨[⟨"docs/old.md", "docs/new.md", 3⟩], [("docs/old.md", "docs/new.md")], []⟩
    ⟨"docs/a.md", ⟨"[x](old.md)", "x", "old.md", none, 1, 1, LinkType.internal⟩,
      VStatus.broken, some "docs/old.md", some "Target not found: docs/old.md"⟩
    ⟨"docs/old.md", by decide, "docs/new.md", by decide, by decide⟩
  rw [hall ["other/old.md"]]
  have hval : findRedirectSuggestion ["root/docs/new.md", "root/other/old.md"] "root"
      ⟨[⟨"docs/old.md", "docs/new.md", 3⟩], [("docs/old.md", "docs/new.md")], []⟩
      (brokenResolvedPath
        ⟨"docs/a.md", ⟨"[x](old.md)", "x", "old.md", none, 1, 1, LinkType.internal⟩,
          VStatus.broken, some "docs/old.md", some "Target not found: docs/old.md"⟩) =
      some ⟨Confidence.high, "docs/new.md", "Redirect exists in .gitbook.yaml",
        some ⟨"docs/old.md", "docs/new.md", 3⟩⟩ := by decide
  rw [hval] at hs
  exact hs.symm

/-! ## Markdown heading parser (parsers/markdown.ts) and anchor validation (C8) -/

/-- `String.prototype.trim`. -/
def jsTrim (s : String) : String :=
  String.mk (((s.data.dropWhile isJsSpace).reverse.dropWhile isJsSpace).reverse)

/-- One heading of a file. -/
structure HeadingInfo where
  text : String
  id : String
  level : Nat
  line : Nat
deriving DecidableEq

/-- Headings of one file. -/
structure FileHeadings where
  filePath : String
  headings : List HeadingInfo
deriving DecidableEq

/-- `computeCodeBlockState`: the in-fenced-block state of each line. -/
def codeBlockAux : Bool → List String → List Bool
  | _, [] => []
  | inBlock, line :: rest =>
    let toggled :=
      if strStartsWith (jsTrim line) "```" || strStartsWith (jsTrim line) "~~~" then !inBlock
      else inBlock
    toggled :: codeBlockAux toggled rest

/-- Fence state for every line of a file. -/
def computeCodeBlockState (lines : List String) : List Bool :=
  codeBlockAux false lines

/-- Match of the ATX heading regex `^(#{1,6})\s+(.+)$`: level and the raw
text capture (with the regex's greedy/backtracking capture semantics). -/
def parseHeadingLine (line : String) : Option (Nat × String) :=
  let cs := line.data
  let hashes := cs.takeWhile (fun c => c == '#')
  let n := hashes.length
  let tail := cs.drop n
  if 1 ≤ n ∧ n ≤ 6 then
    match tail with
    | [] => none
    | t :: _ =>
      if isJsSpace t then
        let sp := tail.takeWhile isJsSpace
        let rest := tail.drop sp.length
        match rest with
        | _ :: _ => some (n, String.mk rest)
        | [] =>
          match sp.reverse with
          | last :: _ :: _ => some (n, String.mk [last])
          | _ => none
      else none
  else none

/-- First match of `\x7b#([^}]+)\x7d\s*$` in the trimmed heading text:
returns the captured id and the text before the match.  The fuel is the
remaining scan length (structural recursion in place of the regex cursor). -/
def customAnchorAux : Nat → List Char → List Char → Option (String × List Char)
  | 0, _, _ => none
  | _ + 1, _, [] => none
  | fuel + 1, pre, '{' :: '#' :: rest =>
    let idChars := rest.takeWhile (fun c => c != '}')
    let after := rest.drop idChars.length
    match idChars, after with
    | _ :: _, '}' :: tailRest =>
      if tailRest.all isJsSpace then some (String.mk idChars, pre.reverse)
      else customAnchorAux fuel ('{' :: pre) ('#' :: rest)
    | _, _ => customAnchorAux fuel ('{' :: pre) ('#' :: rest)
  | fuel + 1, pre, c :: rest => customAnchorAux fuel (c :: pre) rest

/-- Run the custom-anchor scan over a whole text. -/
def customAnchorScan (cs : List Char) : Option (String × List Char) :=
  customAnchorAux cs.length [] cs

/-- The headings of the line sequence (line numbers start at `start`). -/
def headingsSeq : Nat → List (String × Bool) → List HeadingInfo
  | _, [] => []
  | lineNum, (line, inBlock) :: rest =>
    let here : List HeadingInfo :=
      if inBlock then []
      else
        match parseHeadingLine line with
        | some lv =>
          let text0 := jsTrim lv.2
          match customAnchorScan text0.data with
          | some idPre =>
            [{ text := jsTrim (String.mk idPre.2), id := idPre.1, level := lv.1, line := lineNum }]
          | none =>
            [{ text := text0, id := generateAnchorId text0, level := lv.1, line := lineNum }]
        | none => []
    here ++ headingsSeq (lineNum + 1) rest

/-- `parseMarkdownHeadings` from `link-checker/parsers/markdown.ts`. -/
def parseMarkdownHeadings (filePath content : String) : FileHeadings :=
  let lines := splitStr content '\n'
  { filePath := filePath,
    headings := headingsSeq 1 (lines.zip (computeCodeBlockState lines)) }

/-- Content-bearing filesystem: association of full paths to file text. -/
def fsRead : List (String × String) → String → Option String
  | [], _ => none
  | (a, v) :: rest, p => if a = p then some v else fsRead rest p

/-- `getFileHeadings` (the per-process memoization is observationally the
identity and is not modelled). -/
def getFileHeadings (fsys : List (String × String)) (filePath projectRoot : String) :
    Option FileHeadings :=
  match fsRead fsys (joinPaths projectRoot filePath) with
  | none => none
  | some content => some (parseMarkdownHeadings filePath content)

/-- `calculateSimilarity`: `1 - editDistance / maxLength`, case-insensitive
(`editDistance ≤ maxLength` always, so the value is `(maxLength -
editDistance) / maxLength`). -/
def calculateSimilarity (a b : String) : Frac :=
  let aL := jsToLower a
  let bL := jsToLower b
  let maxLen := max aL.data.length bL.data.length
  if maxLen = 0 then ⟨1, 1⟩ else ⟨maxLen - levDist aL bL, maxLen⟩

/-- `findSimilarAnchors`: ids scoring above `0.5`, best three by
descending score. -/
def findSimilarAnchors (targetAnchor : String) (headings : List HeadingInfo) : List String :=
  let suggestions := headings.filterMap (fun h =>
    let score := calculateSimilarity targetAnchor h.id
    if fracLt ⟨1, 2⟩ score then some (h.id, score) else none)
  ((sortDescFrac (fun p => p.2) suggestions).take 3).map (fun p => p.1)

/-- Result of `validateAnchor`. -/
structure AnchorValidation where
  valid : Bool
  error : Option String
  suggestions : Option (List String)
deriving DecidableEq

/-- `validateAnchor` from `link-checker/validators/anchor-validator.ts`. -/
def validateAnchor (fsys : List (String × String)) (targetFile anchor projectRoot : String) :
    AnchorValidation :=
  match getFileHeadings fsys targetFile projectRoot with
  | none =>
    { valid := false, error := some ("Target file not found: " ++ targetFile),
      suggestions := none }
  | some headings =>
    let normalizedAnchor := jsToLower anchor
    if (headings.headings.find? (fun h => h.id == normalizedAnchor)).isSome then
      { valid := true, error := none, suggestions := none }
    else if (headings.headings.find? (fun h => jsToLower h.id == normalizedAnchor)).isSome then
      { valid := true, error := none, suggestions := none }
    else
      let suggestions := findSimilarAnchors normalizedAnchor headings.headings
      { valid := false,
        error := some ("Anchor not found: #" ++ anchor ++ " in " ++ targetFile),
        suggestions := if suggestions.length > 0 then some suggestions else none }

/-! ### C8 lemmas: the suggestion list is a sorted, filtered top-3 -/

theorem fracLe_iff (x y : Frac) (hx : 0 < x.den) (hy : 0 < y.den) :
    fracLe x y = true ↔ fracVal x ≤ fracVal y := by
  rw [fracLe, Nat.ble_eq, fracVal, fracVal,
    div_le_div_iff₀ (by exact_mod_cast hx) (by exact_mod_cast hy)]
  exact_mod_cast Iff.rfl

theorem fracLt_iff (x y : Frac) (hx : 0 < x.den) (hy : 0 < y.den) :
    fracLt x y = true ↔ fracVal x < fracVal y := by
  rw [fracLt, Nat.blt_eq, fracVal, fracVal,
    div_lt_div_iff₀ (by exact_mod_cast hx) (by exact_mod_cast hy)]
  exact_mod_cast Iff.rfl

theorem mem_insertDescFrac {α : Type} (key : α → Frac) (x : α) (l : List α) :
    ∀ z ∈ insertDescFrac key x l, z = x ∨ z ∈ l := by
  induction l with
  | nil => intro z hz; simp [insertDescFrac] at hz; exact Or.inl hz
  | cons y ys ih =>
    intro z hz
    rw [insertDescFrac] at hz
    by_cases hc : fracLe (key x) (key y) = true
    · rw [if_pos hc] at hz
      rw [List.mem_cons] at hz
      rcases hz with hz | hz
      · exact Or.inr (by simp [hz])
      · rcases ih z hz with h | h
        · exact Or.inl h
        · exact Or.inr (by simp [h])
    · rw [if_neg hc] at hz
      rw [List.mem_cons] at hz
      rcases hz with hz | hz
      · exact Or.inl hz
      · exact Or.inr hz

theorem insertDescFrac_sorted {α : Type} (key : α → Frac) (x : α) (l : List α)
    (hx : 0 < (key x).den) (hl : ∀ z ∈ l, 0 < (key z).den)
    (hp : List.Pairwise (fun a b => fracVal (key b) ≤ fracVal (key a)) l) :
    List.Pairwise (fun a b => fracVal (key b) ≤ fracVal (key a)) (insertDescFrac key x l) := by
  induction l with
  | nil => simp [insertDescFrac]
  | cons y ys ih =>
    rw [List.pairwise_cons] at hp
    have hyden : 0 < (key y).den := hl y (by simp)
    rw [insertDescFrac]
    by_cases hc : fracLe (key x) (key y) = true
    · rw [if_pos hc]
      rw [List.pairwise_cons]
      constructor
      · intro z hz
        rcases mem_insertDescFrac key x ys z hz with h | h
        · subst h
          exact (fracLe_iff _ _ hx hyden).mp hc
        · exact hp.1 z h
      · exact ih (fun z hz => hl z (by simp [hz])) hp.2
    · rw [if_neg hc]
      have hyx : fracVal (key y) ≤ fracVal (key x) := by
        have : ¬(fracVal (key x) ≤ fracVal (key y)) := by
          intro hle
          exact hc ((fracLe_iff _ _ hx hyden).mpr hle)
        linarith
      rw [List.pairwise_cons]
      constructor
      · intro z hz
        rw [List.mem_cons] at hz
        rcases hz with hz | hz
        · subst hz; exact hyx
        · exact le_trans (hp.1 z hz) hyx
      · rw [List.pairwise_cons]
        exact ⟨hp.1, hp.2⟩

theorem sortDescFrac_aux {α : Type} (key : α → Frac) (l acc : List α)
    (hl : ∀ z ∈ l, 0 < (key z).den) (hacc : ∀ z ∈ acc, 0 < (key z).den)
    (hp : List.Pairwise (fun a b => fracVal (key b) ≤ fracVal (key a)) acc) :
    List.Pairwise (fun a b => fracVal (key b) ≤ fracVal (key a))
        (List.foldl (fun acc x => insertDescFrac key x acc) acc l) ∧
      ∀ z ∈ List.foldl (fun acc x => insertDescFrac key x acc) acc l, z ∈ acc ∨ z ∈ l := by
  induction l generalizing acc with
  | nil => exact ⟨hp, fun z hz => Or.inl hz⟩
  | cons x xs ih =>
    have hx : 0 < (key x).den := hl x (by simp)
    have hacc' : ∀ z ∈ insertDescFrac key x acc, 0 < (key z).den := by
      intro z hz
      rcases mem_insertDescFrac key x acc z hz with h | h
      · subst h; exact hx
      · exact hacc z h
    have hp' := insertDescFrac_sorted key x acc hx hacc hp
    obtain ⟨hps, hpm⟩ := ih (insertDescFrac key x acc)
      (fun z hz => hl z (by simp [hz])) hacc' hp'
    refine ⟨hps, ?_⟩
    intro z hz
    rcases hpm z hz with h | h
    · rcases mem_insertDescFrac key x acc z h with h' | h'
      · exact Or.inr (by simp [h'])
      · exact Or.inl h'
    · exact Or.inr (by simp [h])

theorem sortDescFrac_props {α : Type} (key : α → Frac) (l : List α)
    (hl : ∀ z ∈ l, 0 < (key z).den) :
    List.Pairwise (fun a b => fracVal (key b) ≤ fracVal (key a)) (sortDescFrac key l) ∧
      ∀ z ∈ sortDescFrac key l, z ∈ l := by
  obtain ⟨hs, hm⟩ := sortDescFrac_aux key l [] hl (by intro z hz; cases hz) (by simp)
  refine ⟨hs, ?_⟩
  intro z hz
  rcases hm z hz with h | h
  · cases h
  · exact h

theorem calculateSimilarity_den_pos (a b : String) : 0 < (calculateSimilarity a b).den := by
  simp only [calculateSimilarity]
  split
  · exact Nat.one_pos
  · rename_i h
    exact Nat.pos_of_ne_zero h

theorem fracVal_half : fracVal ⟨1, 2⟩ = 1/2 := by
  rw [fracVal]
  norm_num

/-- The members and order of `findSimilarAnchors`. -/
theorem findSimilarAnchors_props (targetAnchor : String) (headings : List HeadingInfo) :
    (findSimilarAnchors targetAnchor headings).length ≤ 3 ∧
      List.Pairwise (fun a b =>
        fracVal (calculateSimilarity targetAnchor b) ≤
          fracVal (calculateSimilarity targetAnchor a)) (findSimilarAnchors targetAnchor headings) ∧
      ∀ anchorId ∈ findSimilarAnchors targetAnchor headings,
        fracVal (calculateSimilarity targetAnchor anchorId) > 1/2 := by
  have hsugg : ∀ p ∈ headings.filterMap (fun h =>
      let score := calculateSimilarity targetAnchor h.id
      if fracLt ⟨1, 2⟩ score then some (h.id, score) else none),
      p.2 = calculateSimilarity targetAnchor p.1 ∧ fracLt ⟨1, 2⟩ p.2 = true := by
    intro p hp
    rw [List.mem_filterMap] at hp
    obtain ⟨h, _, hph⟩ := hp
    by_cases hc : fracLt ⟨1, 2⟩ (calculateSimilarity targetAnchor h.id) = true
    · simp only [hc, if_true] at hph
      cases hph
      exact ⟨rfl, hc⟩
    · simp only [hc] at hph
      simp at hph
  have hden : ∀ p ∈ headings.filterMap (fun h =>
      let score := calculateSimilarity targetAnchor h.id
      if fracLt ⟨1, 2⟩ score then some (h.id, score) else none),
      0 < ((fun p : String × Frac => p.2) p).den := by
    intro p hp
    show 0 < p.2.den
    rw [(hsugg p hp).1]
    exact calculateSimilarity_den_pos _ _
  obtain ⟨hsort, hmem⟩ := sortDescFrac_props (fun p : String × Frac => p.2) _ hden
  refine ⟨?_, ?_, ?_⟩
  · rw [findSimilarAnchors, List.length_map]
    exact le_trans (List.length_take_le 3 _) (le_refl 3)
  · rw [findSimilarAnchors, List.pairwise_map]
    have htake := hsort.sublist (List.take_sublist 3 _)
    refine List.Pairwise.imp_of_mem ?_ htake
    intro p q hp hq hle
    have hpm := hsugg p (hmem p (List.take_subset 3 _ hp))
    have hqm := hsugg q (hmem q (List.take_subset 3 _ hq))
    rw [← hpm.1, ← hqm.1]
    exact hle
  · intro anchorId hid
    rw [findSimilarAnchors, List.mem_map] at hid
    obtain ⟨p, hp, hpeq⟩ := hid
    have hpm := hsugg p (hmem p (List.take_subset 3 _ hp))
    have hlt := (fracLt_iff ⟨1, 2⟩ p.2 (by norm_num)
      (by rw [hpm.1]; exact calculateSimilarity_den_pos _ _)).mp hpm.2
    rw [fracVal_half] at hlt
    rw [← hpeq, ← hpm.1]
    exact hlt

set_option maxRecDepth 40000 in
/-- C8: with no exact and no case-insensitive heading-id match,
`validateAnchor` reports invalid and suggests at most three heading ids,
in descending order of the similarity score `1 - editDistance/maxLength`,
all scoring above `1/2`; and the near-miss anchor `instalation` against a
file whose only heading id is `installation` yields `installation` among
the suggestions. -/
theorem c8_validateAnchor_suggestions :
    (∀ (fsys : List (String × String)) (targetFile anchor projectRoot : String)
        (fh : FileHeadings),
      getFileHeadings fsys targetFile projectRoot = some fh →
      (∀ h ∈ fh.headings, h.id ≠ jsToLower anchor) →
      (∀ h ∈ fh.headings, jsToLower h.id ≠ jsToLower anchor) →
      ((validateAnchor fsys targetFile anchor projectRoot).valid = false ∧
        (validateAnchor fsys targetFile anchor projectRoot).suggestions =
          (if (findSimilarAnchors (jsToLower anchor) fh.headings).length > 0 then
            some (findSimilarAnchors (jsToLower anchor) fh.headings) else none) ∧
        (findSimilarAnchors (jsToLower anchor) fh.headings).length ≤ 3 ∧
        List.Pairwise (fun a b =>
          fracVal (calculateSimilarity (jsToLower anchor) b) ≤
            fracVal (calculateSimilarity (jsToLower anchor) a))
          (findSimilarAnchors (jsToLower anchor) fh.headings) ∧
        ∀ anchorId ∈ findSimilarAnchors (jsToLower anchor) fh.headings,
          fracVal (calculateSimilarity (jsToLower anchor) anchorId) > 1/2)) ∧
    "installation" ∈ (validateAnchor [("root/doc.md", "# Installation\n")]
        "doc.md" "instalation" "root").suggestions.getD [] := by
  constructor
  · intro fsys targetFile anchor projectRoot fh hget hexact hcase
    have hfind1 : fh.headings.find? (fun h => h.id == jsToLower anchor) = none := by
      rw [List.find?_eq_none]
      intro h hm
      simpa using hexact h hm
    have hfind2 : fh.headings.find? (fun h => jsToLower h.id == jsToLower anchor) = none := by
      rw [List.find?_eq_none]
      intro h hm
      simpa using hcase h hm
    have hval : validateAnchor fsys targetFile anchor projectRoot =
        { valid := false,
          error := some ("Anchor not found: #" ++ anchor ++ " in " ++ targetFile),
          suggestions :=
            if (findSimilarAnchors (jsToLower anchor) fh.headings).length > 0 then
              some (findSimilarAnchors (jsToLower anchor) fh.headings) else none } := by
      unfold validateAnchor
      rw [hget]
      simp only [hfind1, hfind2, Option.isSome_none, Bool.false_eq_true, if_false]
    obtain ⟨hlen, hsort, hscore⟩ := findSimilarAnchors_props (jsToLower anchor) fh.headings
    exact ⟨by rw [hval], by rw [hval], hlen, hsort, hscore⟩
  · decide

set_option maxRecDepth 40000 in
/-- C8 witness: the hypotheses hold for the `instalation` near-miss file
and the conclusion follows by the theorem applied there. -/
theorem c8_validateAnchor_suggestions_witness :
    getFileHeadings [("root/doc.md", "# Installation\n")] "doc.md" "root" =
      some (parseMarkdownHeadings "doc.md" "# Installation\n") ∧
    (∀ h ∈ (parseMarkdownHeadings "doc.md" "# Installation\n").headings,
      h.id ≠ jsToLower "instalation") ∧
    (validateAnchor [("root/doc.md", "# Installation\n")] "doc.md" "instalation" "root").valid
      = false ∧
    (findSimilarAnchors (jsToLower "instalation")
      (parseMarkdownHeadings "doc.md" "# Installation\n").headings).length ≤ 3 := by
  have h := (c8_validateAnchor_suggestions.1 [("root/doc.md", "# Installation\n")]
    "doc.md" "instalation" "root" (parseMarkdownHeadings "doc.md" "# Installation\n")
    (by decide) (by decide) (by decide))
  exact ⟨by decide, by decide, h.1, h.2.2.1⟩

/-! ## Fixer/Rewriter (link-checker/fixers/link-fixer.ts, C3 and C4)

File contents live in an association list from full path to text; a write
trace records every `writeFile` call.  `applyFixes` has no try/catch, so a
failing read aborts the whole batch (`none`). -/

/-- One attempted rewrite. -/
structure FixResult where
  sourceFile : String
  originalLink : ParsedLink
  newPath : String
  success : Bool
  error : Option String
  redirectAdded : Bool
deriving DecidableEq

/-- `writeFile` on the content map. -/
def fsWrite : List (String × String) → String → String → List (String × String)
  | [], p, content => [(p, content)]
  | (a, v) :: rest, p, content =>
    if a = p then (p, content) :: rest else (a, v) :: fsWrite rest p content

/-- Prefix-match one candidate, returning the remainder after the match. -/
def matchCand : List Char → List Char → Option (List Char)
  | [], rest => some rest
  | _ :: _, [] => none
  | a :: as, b :: bs => if a = b then matchCand as bs else none

/-- First candidate that matches at this position. -/
def firstMatchCand : List (List Char) → List Char → Option (List Char)
  | [], _ => none
  | cand :: cs, l =>
    match matchCand cand l with
    | some r => some r
    | none => firstMatchCand cs l

/-- Global regex replacement for a family of literal alternatives tried in
order at each position (the fuel is the scan length). -/
def scanReplAux (cands : List (List Char)) (rep : List Char) : Nat → List Char → List Char
  | _, [] => []
  | 0, l => l
  | fuel + 1, c :: cs =>
    match firstMatchCand cands (c :: cs) with
    | some rest => rep ++ scanReplAux cands rep fuel rest
    | none => c :: scanReplAux cands rep fuel cs

/-- Replace every match of the candidate family in `l`. -/
def replaceAllCands (cands : List (List Char)) (rep : List Char) (l : List Char) : List Char :=
  scanReplAux cands rep l.length l

/-- The alternatives of `\]\(<?target>?\)` (with `escapeRegex` making the
target literal), in the greedy backtracking order of the regex engine. -/
def linkPatternCands (link : ParsedLink) : List (List Char) :=
  let tgt := (link.target ++ (match link.anchor with
    | some a => "#" ++ a
    | none => "")).data
  [("](<".data ++ tgt ++ ">)".data),
   ("](<".data ++ tgt ++ ")".data),
   ("](".data ++ tgt ++ ">)".data),
   ("](".data ++ tgt ++ ")".data)]

/-- `replaceLink`: the line with every `](target)` occurrence replaced, or
`none` when nothing changed. -/
def replaceLink (line : String) (link : ParsedLink) (newTarget : String) : Option String :=
  let rep := ("](" ++ newTarget ++ ")").data
  let newLine := String.mk (replaceAllCands (linkPatternCands link) rep line.data)
  if newLine ≠ line then some newLine else none

/-- `toRelativeLink` from `shared/path-utils.ts`. -/
def toRelativeLink (sourceFile targetPath : String) : String :=
  let relative := pathRelative (pathDirname sourceFile) targetPath
  if !strStartsWith relative "." && !strStartsWith relative "/" then "./" ++ relative
  else relative

/-- The replacement target of one fix (relative path plus preserved anchor). -/
def newTargetOf (broken : ValidationResult) (suggestion : FixSuggestion) : String :=
  let newRelativePath := toRelativeLink broken.sourceFile suggestion.suggestedPath
  match broken.link.anchor with
  | some a => newRelativePath ++ "#" ++ a
  | none => newRelativePath

/-- JS `Map` grouping by source file (insertion order preserved). -/
def upsertFix (acc : List (String × List (ValidationResult × FixSuggestion)))
    (f : ValidationResult × FixSuggestion) :
    List (String × List (ValidationResult × FixSuggestion)) :=
  match acc with
  | [] => [(f.1.sourceFile, [f])]
  | (k, v) :: rest =>
    if k = f.1.sourceFile then (k, v ++ [f]) :: rest else (k, v) :: upsertFix rest f

/-- `fixesByFile` of `applyFixes`. -/
def groupByFile (fixes : List (ValidationResult × FixSuggestion)) :
    List (String × List (ValidationResult × FixSuggestion)) :=
  fixes.foldl upsertFix []

/-- Stable insertion, descending by a natural key. -/
def insertDescNat {α : Type} (key : α → Nat) (x : α) : List α → List α
  | [] => [x]
  | y :: ys => if key x ≤ key y then y :: insertDescNat key x ys else x :: y :: ys

/-- Stable sort, descending by a natural key (JS stable `sort` with
comparator `(a, b) => key b - key a`). -/
def sortDescNat {α : Type} (key : α → Nat) (l : List α) : List α :=
  l.foldl (fun acc x => insertDescNat key x acc) []

/-- Apply one file's fixes in order against its (mutating) line array. -/
def applyFileFixes (lines : List String) :
    List (ValidationResult × FixSuggestion) → List String × List FixResult
  | [] => (lines, [])
  | (broken, suggestion) :: rest =>
    if broken.link.line = 0 || lines.length ≤ broken.link.line - 1 then
      let r := applyFileFixes lines rest
      (r.1, { sourceFile := broken.sourceFile, originalLink := broken.link,
              newPath := suggestion.suggestedPath, success := false,
              error := some ("Line " ++ toString broken.link.line ++ " not found in file"),
              redirectAdded := false } :: r.2)
    else
      let lineIndex := broken.link.line - 1
      let line := lines.getD lineIndex ""
      match replaceLink line broken.link (newTargetOf broken suggestion) with
      | none =>
        let r := applyFileFixes lines rest
        (r.1, { sourceFile := broken.sourceFile, originalLink := broken.link,
                newPath := suggestion.suggestedPath, success := false,
                error := some "Could not find link to replace",
                redirectAdded := false } :: r.2)
      | some updatedLine =>
        let r := applyFileFixes (lines.set lineIndex updatedLine) rest
        (r.1, { sourceFile := broken.sourceFile, originalLink := broken.link,
                newPath := suggestion.suggestedPath, success := true,
                error := none, redirectAdded := false } :: r.2)

/-- Per-file loop of `applyFixes`: read once, apply the line-descending
fixes, write once. -/
def applyFixesGroups (projectRoot : String) :
    List (String × List (ValidationResult × FixSuggestion)) → List (String × String) →
    Option (List FixResult × List (String × String) × List (String × String))
  | [], fsys => some ([], fsys, [])
  | (sourceFile, fileFixes) :: rest, fsys =>
    let filePath := joinPaths projectRoot sourceFile
    match fsRead fsys filePath with
    | none => none
    | some content =>
      let lines := splitStr content '\n'
      let sorted := sortDescNat (fun f => f.1.link.line) fileFixes
      let applied := applyFileFixes lines sorted
      let newContent := joinWithNewline applied.1
      let fsys1 := fsWrite fsys filePath newContent
      match applyFixesGroups projectRoot rest fsys1 with
      | none => none
      | some (results', fsys2, trace) =>
        some (applied.2 ++ results', fsys2, (filePath, newContent) :: trace)

/-- `applyFixes` from `link-checker/fixers/link-fixer.ts`; the last
component is the trace of file writes. -/
def applyFixes (fixes : List (ValidationResult × FixSuggestion)) (projectRoot : String)
    (fsys : List (String × String)) :
    Option (List FixResult × List (String × String) × List (String × String)) :=
  applyFixesGroups projectRoot (groupByFile fixes) fsys

/-- `replace(/^\.\x2f/, '')`: one leading `./` removed. -/
def dropLeadDotSlash (s : String) : String :=
  if strStartsWith s "./" then strDrop s 2 else s

/-- The redirect `from` key derived from a fixed link's original target. -/
def redirectFromOf (target : String) : String :=
  dropMdSuffix (dropLeadDotSlash target)

/-- One step of `generateRedirectEntries`. -/
def genRedirStep (acc : List (String × String)) (result : FixResult) : List (String × String) :=
  if result.success then
    let fromKey := redirectFromOf result.originalLink.target
    if strIncludes fromKey ".." then acc
    else if acc.any (fun r => r.1 == fromKey && r.2 == result.newPath) then acc
    else acc ++ [(fromKey, result.newPath)]
  else acc

/-- `generateRedirectEntries`: `(from, to)` pairs of successful fixes,
skipping parent-directory traversals and duplicate pairs. -/
def generateRedirectEntries (fixResults : List FixResult) : List (String × String) :=
  fixResults.foldl genRedirStep []

/-- Is this line a two-space-indented entry (regex `^\s\x7b2\x7d\S`)? -/
def isTwoSpaceEntry (line : String) : Bool :=
  match line.data with
  | a :: b :: c :: _ => isJsSpace a && isJsSpace b && !isJsSpace c
  | _ => false

/-- Does this line start with a non-space character (regex `^\S`)? -/
def startsNonSpace (line : String) : Bool :=
  match line.data with
  | c :: _ => !isJsSpace c
  | [] => false

/-- The scan of `addRedirects` for the `redirects:` marker and the last
entry line (returns the two indices; the loop breaks at the first
non-indented non-blank line after the marker). -/
def scanRedirAux : Nat → Option Nat → Option Nat → List String → Option Nat × Option Nat
  | _, ri, li, [] => (ri, li)
  | i, ri, li, line :: rest =>
    let ri' := if jsTrim line = "redirects:" then some i else ri
    match ri' with
    | some r =>
      if i > r then
        if isTwoSpaceEntry line then scanRedirAux (i + 1) ri' (some i) rest
        else if startsNonSpace line ∧ jsTrim line ≠ "" then (ri', li)
        else scanRedirAux (i + 1) ri' li rest
      else scanRedirAux (i + 1) ri' li rest
    | none => scanRedirAux (i + 1) ri' li rest

/-- `addRedirects` from `shared/gitbook-yaml.ts`, as a content-map update;
`none` where `readFile` throws. -/
def addRedirects (fsys : List (String × String)) (yamlPath : String)
    (redirects : List (String × String)) : Option (List (String × String)) :=
  if redirects = [] then some fsys
  else
    match fsRead fsys yamlPath with
    | none => none
    | some content =>
      let lines := splitStr content '\n'
      let scanned := scanRedirAux 0 none none lines
      let newRedirectLines := redirects.map (fun r => "  " ++ r.1 ++ ": " ++ r.2)
      let finalLines :=
        match scanned.1 with
        | none => lines ++ [""] ++ ["redirects:"] ++ newRedirectLines
        | some r =>
          match scanned.2 with
          | some l => lines.take (l + 1) ++ newRedirectLines ++ lines.drop (l + 1)
          | none => lines.take (r + 1) ++ newRedirectLines ++ lines.drop (r + 1)
      some (fsWrite fsys yamlPath (joinWithNewline finalLines))

/-- `applyRedirects`. -/
def applyRedirects (fsys : List (String × String)) (gitbookYamlPath : String)
    (redirects : List (String × String)) : Option (List (String × String)) :=
  if redirects = [] then some fsys
  else addRedirects fsys gitbookYamlPath redirects

/-- The in-place `redirectAdded` update of `applyFixesWithRedirects`. -/
def markRedirectAdded (r : FixResult) : FixResult :=
  if r.success then { r with redirectAdded := true } else r

/-- `applyFixesWithRedirects`: fixes, then redirect generation and append. -/
def applyFixesWithRedirects (fixes : List (ValidationResult × FixSuggestion))
    (projectRoot gitbookYamlPath : String) (addRedirectsFlag : Bool)
    (fsys : List (String × String)) :
    Option (List FixResult × Nat × List (String × String) × List (String × String)) :=
  match applyFixes fixes projectRoot fsys with
  | none => none
  | some (fixResults, fsys1, trace) =>
    if addRedirectsFlag then
      let redirects := generateRedirectEntries fixResults
      if redirects.length > 0 then
        match applyRedirects fsys1 gitbookYamlPath redirects with
        | none => none
        | some fsys2 =>
          some (fixResults.map markRedirectAdded, redirects.length, fsys2, trace)
      else some (fixResults, 0, fsys1, trace)
    else some (fixResults, 0, fsys1, trace)

/-! ### C3: `redirectAdded` versus the appended entry set -/

/-- Fixture: a broken link whose target climbs to the parent directory. -/
def fixtureBrokenUp : ValidationResult :=
  ⟨"docs/a.md", ⟨"[a](../x.md)", "a", "../x.md", none, 1, 4, LinkType.internal⟩,
    VStatus.broken, some "x.md", some "Target not found: x.md"⟩

/-- Fixture: a broken link inside the source directory. -/
def fixtureBrokenIn : ValidationResult :=
  ⟨"docs/a.md", ⟨"[b](./y.md)", "b", "./y.md", none, 2, 4, LinkType.internal⟩,
    VStatus.broken, some "docs/y.md", some "Target not found: docs/y.md"⟩

/-- Fixture: suggestions for the two broken links. -/
def fixtureSuggestionUp : FixSuggestion := ⟨Confidence.high, "docs/x2.md", "r", none⟩

/-- Fixture: suggestion for the in-directory link. -/
def fixtureSuggestionIn : FixSuggestion := ⟨Confidence.high, "docs/y2.md", "r", none⟩

/-- Fixture: the filesystem with the source file and the redirect table. -/
def fixtureFs : List (String × String) :=
  [("root/docs/a.md", "[a](../x.md)\n[b](./y.md)\n"),
   ("root/.gitbook.yaml", "redirects:\n  old: new.md\n")]

/-- C3 counterexample: both fixes succeed and both end with
`redirectAdded = true`, yet the appended entry set is only
`[(y, docs/y2.md)]` — no entry derives from the `../x.md` fix (its entry is
skipped for parent-directory traversal), so `redirectAdded = true` does not
imply that a redirect corresponding to that fix was appended. -/
theorem c3_redirectAdded_counterexample :
    (applyFixesWithRedirects [(fixtureBrokenUp, fixtureSuggestionUp),
        (fixtureBrokenIn, fixtureSuggestionIn)] "root" "root/.gitbook.yaml" true fixtureFs).map
      (fun out => out.1.map (fun fr => (fr.originalLink.target, fr.success, fr.redirectAdded)))
      = some [("./y.md", true, true), ("../x.md", true, true)] ∧
    (applyFixesWithRedirects [(fixtureBrokenUp, fixtureSuggestionUp),
        (fixtureBrokenIn, fixtureSuggestionIn)] "root" "root/.gitbook.yaml" true fixtureFs).map
      (fun out => generateRedirectEntries out.1) = some [("y", "docs/y2.md")] ∧
    redirectFromOf "../x.md" = "../x" ∧
    (applyFixesWithRedirects [(fixtureBrokenUp, fixtureSuggestionUp),
        (fixtureBrokenIn, fixtureSuggestionIn)] "root" "root/.gitbook.yaml" true fixtureFs).map
      (fun out => (generateRedirectEntries out.1).any (fun r => r.1 == "../x"))
      = some false := by
  refine ⟨by decide, by decide, by decide, by decide⟩

theorem applyFileFixes_redirectAdded (lines : List String)
    (l : List (ValidationResult × FixSuggestion)) :
    ∀ r ∈ (applyFileFixes lines l).2, r.redirectAdded = false := by
  induction l generalizing lines with
  | nil => intro r hr; simp [applyFileFixes] at hr
  | cons f rest ih =>
    intro r hr
    obtain ⟨broken, suggestion⟩ := f
    rw [applyFileFixes] at hr
    by_cases hline : (broken.link.line = 0 || lines.length ≤ broken.link.line - 1) = true
    · rw [if_pos hline] at hr
      rw [List.mem_cons] at hr
      rcases hr with hr | hr
      · rw [hr]
      · exact ih lines r hr
    · rw [if_neg hline] at hr
      cases hrep : replaceLink (lines.getD (broken.link.line - 1) "") broken.link
          (newTargetOf broken suggestion) with
      | none =>
        simp only [hrep] at hr
        rw [List.mem_cons] at hr
        rcases hr with hr | hr
        · rw [hr]
        · exact ih lines r hr
      | some updatedLine =>
        simp only [hrep] at hr
        rw [List.mem_cons] at hr
        rcases hr with hr | hr
        · rw [hr]
        · exact ih (lines.set (broken.link.line - 1) updatedLine) r hr

theorem applyFixesGroups_redirectAdded (projectRoot : String)
    (groups : List (String × List (ValidationResult × FixSuggestion)))
    (fsys : List (String × String))
    (out : List FixResult × List (String × String) × List (String × String))
    (h : applyFixesGroups projectRoot groups fsys = some out) :
    ∀ r ∈ out.1, r.redirectAdded = false := by
  induction groups generalizing fsys out with
  | nil =>
    rw [applyFixesGroups] at h
    cases h
    intro r hr
    simp at hr
  | cons g rest ih =>
    obtain ⟨sourceFile, fileFixes⟩ := g
    rw [applyFixesGroups] at h
    cases hread : fsRead fsys (joinPaths projectRoot sourceFile) with
    | none => rw [hread] at h; cases h
    | some content =>
      rw [hread] at h
      simp only [] at h
      cases hrec : applyFixesGroups projectRoot rest
          (fsWrite fsys (joinPaths projectRoot sourceFile)
            (joinWithNewline (applyFileFixes (splitStr content '\n')
              (sortDescNat (fun f => f.1.link.line) fileFixes)).1)) with
      | none => rw [hrec] at h; simp at h
      | some out' =>
        obtain ⟨results', fsys2, trace2⟩ := out'
        simp only [hrec] at h
        cases h
        intro r hr
        rw [List.mem_append] at hr
        rcases hr with hr | hr
        · exact applyFileFixes_redirectAdded _ _ r hr
        · exact ih _ (results', fsys2, trace2) hrec r hr

theorem genRedirStep_mark (acc : List (String × String)) (r : FixResult) :
    genRedirStep acc (markRedirectAdded r) = genRedirStep acc r := by
  by_cases hs : r.success = true
  · simp [genRedirStep, markRedirectAdded, hs]
  · simp [genRedirStep, markRedirectAdded, hs]

theorem generateRedirectEntries_mark (l : List FixResult) :
    generateRedirectEntries (l.map markRedirectAdded) = generateRedirectEntries l := by
  rw [generateRedirectEntries, generateRedirectEntries]
  generalize [] = acc
  induction l generalizing acc with
  | nil => rfl
  | cons r rest ih =>
    rw [List.map_cons, List.foldl_cons, List.foldl_cons, genRedirStep_mark]
    exact ih _

/-- C3 amended: with the redirect flag enabled, `redirectAdded` ends up
true for every successful fix exactly when the combined (deduplicated,
traversal-filtered) entry set of the whole batch is non-empty — whether or
not that particular fix contributed an entry — and when the combined set
is empty (or the flag is off) nothing is appended and the results and
filesystem are exactly those of `applyFixes`. -/
theorem c3_applyFixesWithRedirects_amended
    (fixes : List (ValidationResult × FixSuggestion))
    (projectRoot gitbookYamlPath : String) (flag : Bool) (fsys : List (String × String))
    (results : List FixResult) (n : Nat) (fsys' : List (String × String))
    (trace : List (String × String))
    (h : applyFixesWithRedirects fixes projectRoot gitbookYamlPath flag fsys =
      some (results, n, fsys', trace)) :
    (∀ r ∈ results, (r.redirectAdded = true ↔
      (flag = true ∧ r.success = true ∧ generateRedirectEntries results ≠ []))) ∧
    ((flag = false ∨ generateRedirectEntries results = []) →
      n = 0 ∧ applyFixes fixes projectRoot fsys = some (results, fsys', trace)) := by
  rw [applyFixesWithRedirects] at h
  cases happ : applyFixes fixes projectRoot fsys with
  | none => rw [happ] at h; cases h
  | some out =>
    obtain ⟨fixResults, fsys1, trace1⟩ := out
    rw [happ] at h
    have hzero : ∀ r ∈ fixResults, r.redirectAdded = false :=
      applyFixesGroups_redirectAdded projectRoot (groupByFile fixes) fsys _ happ
    cases flag with
    | false =>
      simp only [Bool.false_eq_true, if_false] at h
      rw [Option.some.injEq, Prod.mk.injEq, Prod.mk.injEq, Prod.mk.injEq] at h
      obtain ⟨h1, h2, h3, h4⟩ := h
      subst h1; subst h2; subst h3; subst h4
      constructor
      · intro r hr
        rw [hzero r hr]
        constructor
        · intro hx; cases hx
        · intro hx; cases hx.1
      · intro _
        exact ⟨rfl, rfl⟩
    | true =>
      simp only [if_true] at h
      by_cases hlen : (generateRedirectEntries fixResults).length > 0
      · rw [if_pos hlen] at h
        cases hred : applyRedirects fsys1 gitbookYamlPath (generateRedirectEntries fixResults) with
        | none => rw [hred] at h; cases h
        | some fsys2 =>
          rw [hred] at h
          rw [Option.some.injEq, Prod.mk.injEq, Prod.mk.injEq, Prod.mk.injEq] at h
          obtain ⟨h1, h2, h3, h4⟩ := h
          subst h1; subst h2; subst h3; subst h4
          have hgen : generateRedirectEntries (fixResults.map markRedirectAdded) =
              generateRedirectEntries fixResults := generateRedirectEntries_mark fixResults
          have hne : generateRedirectEntries (fixResults.map markRedirectAdded) ≠ [] := by
            rw [hgen]
            intro hempty
            rw [hempty] at hlen
            simp at hlen
          constructor
          · intro r hr
            rw [List.mem_map] at hr
            obtain ⟨r0, hr0, hmark⟩ := hr
            by_cases hs : r0.success = true
            · have hr' : r = { r0 with redirectAdded := true } := by
                rw [← hmark, markRedirectAdded, if_pos hs]
              rw [hr']
              constructor
              · intro _
                exact ⟨rfl, hs, hne⟩
              · intro _
                rfl
            · have hr' : r = r0 := by
                rw [← hmark, markRedirectAdded, if_neg hs]
              rw [hr', hzero r0 hr0]
              constructor
              · intro hx; cases hx
              · intro hx; exact absurd hx.2.1 hs
          · intro hcase
            rcases hcase with hcase | hcase
            · cases hcase
            · exact absurd hcase hne
      · rw [if_neg hlen] at h
        rw [Option.some.injEq, Prod.mk.injEq, Prod.mk.injEq, Prod.mk.injEq] at h
        obtain ⟨h1, h2, h3, h4⟩ := h
        subst h1; subst h2; subst h3; subst h4
        have hemp : generateRedirectEntries fixResults = [] := by
          cases hg : generateRedirectEntries fixResults with
          | nil => rfl
          | cons a as => rw [hg] at hlen; simp at hlen
        constructor
        · intro r hr
          rw [hzero r hr]
          constructor
          · intro hx; cases hx
          · intro hx; exact absurd hemp hx.2.2
        · intro _
          exact ⟨rfl, rfl⟩

/-- C3 witness: the amended statement instantiated at the fixture batch. -/
theorem c3_applyFixesWithRedirects_amended_witness :
    applyFixesWithRedirects [(fixtureBrokenUp, fixtureSuggestionUp),
        (fixtureBrokenIn, fixtureSuggestionIn)] "root" "root/.gitbook.yaml" true fixtureFs =
      some ([⟨"docs/a.md", ⟨"[b](./y.md)", "b", "./y.md", none, 2, 4, LinkType.internal⟩,
              "docs/y2.md", true, none, true⟩,
             ⟨"docs/a.md", ⟨"[a](../x.md)", "a", "../x.md", none, 1, 4, LinkType.internal⟩,
              "docs/x2.md", true, none, true⟩], 1,
        [("root/docs/a.md", "[a](./x2.md)\n[b](./y2.md)\n"),
         ("root/.gitbook.yaml", "redirects:\n  old: new.md\n  y: docs/y2.md\n")],
        [("root/docs/a.md", "[a](./x2.md)\n[b](./y2.md)\n")]) ∧
    (∀ r ∈ [(⟨"docs/a.md", ⟨"[b](./y.md)", "b", "./y.md", none, 2, 4, LinkType.internal⟩,
              "docs/y2.md", true, none, true⟩ : FixResult),
            (⟨"docs/a.md", ⟨"[a](../x.md)", "a", "../x.md", none, 1, 4, LinkType.internal⟩,
              "docs/x2.md", true, none, true⟩ : FixResult)],
      (r.redirectAdded = true ↔
        (true = true ∧ r.success = true ∧
          generateRedirectEntries
            [⟨"docs/a.md", ⟨"[b](./y.md)", "b", "./y.md", none, 2, 4, LinkType.internal⟩,
              "docs/y2.md", true, none, true⟩,
             ⟨"docs/a.md", ⟨"[a](../x.md)", "a", "../x.md", none, 1, 4, LinkType.internal⟩,
              "docs/x2.md", true, none, true⟩] ≠ []))) := by
  refine ⟨by decide, ?_⟩
  exact (c3_applyFixesWithRedirects_amended
    [(fixtureBrokenUp, fixtureSuggestionUp), (fixtureBrokenIn, fixtureSuggestionIn)]
    "root" "root/.gitbook.yaml" true fixtureFs
    [⟨"docs/a.md", ⟨"[b](./y.md)", "b", "./y.md", none, 2, 4, LinkType.internal⟩,
      "docs/y2.md", true, none, true⟩,
     ⟨"docs/a.md", ⟨"[a](../x.md)", "a", "../x.md", none, 1, 4, LinkType.internal⟩,
      "docs/x2.md", true, none, true⟩] 1
    [("root/docs/a.md", "[a](./x2.md)\n[b](./y2.md)\n"),
     ("root/.gitbook.yaml", "redirects:\n  old: new.md\n  y: docs/y2.md\n")]
    [("root/docs/a.md", "[a](./x2.md)\n[b](./y2.md)\n")] (by decide)).1

/-! ### C4: frame property of `applyFixes` on two fixes in one file -/

theorem scanReplAux_changed (cands : List (List Char)) (rep : List Char) (fuel : Nat)
    (l : List Char) (h : scanReplAux cands rep fuel l ≠ l) :
    ∃ pre post, scanReplAux cands rep fuel l = pre ++ rep ++ post := by
  induction fuel generalizing l with
  | zero =>
    cases l with
    | nil => exact absurd rfl h
    | cons c cs => exact absurd rfl h
  | succ fuel ih =>
    cases l with
    | nil => exact absurd rfl h
    | cons c cs =>
      rw [scanReplAux] at h ⊢
      cases hm : firstMatchCand cands (c :: cs) with
      | some rest =>
        exact ⟨[], scanReplAux cands rep fuel rest, rfl⟩
      | none =>
        rw [hm] at h
        have hne : scanReplAux cands rep fuel cs ≠ cs := by
          intro heq
          apply h
          show c :: scanReplAux cands rep fuel cs = c :: cs
          rw [heq]
        obtain ⟨pre, post, hp⟩ := ih cs hne
        refine ⟨c :: pre, post, ?_⟩
        show c :: scanReplAux cands rep fuel cs = c :: pre ++ rep ++ post
        rw [hp]
        rfl

theorem replaceLink_contains (line : String) (link : ParsedLink) (newTarget u : String)
    (h : replaceLink line link newTarget = some u) :
    ∃ pre post, u.data = pre ++ ("](" ++ newTarget ++ ")").data ++ post := by
  rw [replaceLink] at h
  by_cases hne : String.mk (replaceAllCands (linkPatternCands link)
      ("](" ++ newTarget ++ ")").data line.data) ≠ line
  · rw [if_pos hne] at h
    cases h
    have hd : replaceAllCands (linkPatternCands link) ("](" ++ newTarget ++ ")").data line.data
        ≠ line.data := by
      intro heq
      apply hne
      rw [heq]
    obtain ⟨pre, post, hp⟩ :=
      scanReplAux_changed (linkPatternCands link) ("](" ++ newTarget ++ ")").data
        line.data.length line.data hd
    exact ⟨pre, post, hp⟩
  · rw [if_neg hne] at h
    cases h

theorem applyFileFixes_cons_success (lines : List String) (broken : ValidationResult)
    (suggestion : FixSuggestion) (rest : List (ValidationResult × FixSuggestion)) (u : String)
    (h1 : 1 ≤ broken.link.line) (h2 : broken.link.line - 1 < lines.length)
    (hrep : replaceLink (lines.getD (broken.link.line - 1) "") broken.link
      (newTargetOf broken suggestion) = some u) :
    applyFileFixes lines ((broken, suggestion) :: rest) =
      ((applyFileFixes (lines.set (broken.link.line - 1) u) rest).1,
        (⟨broken.sourceFile, broken.link, suggestion.suggestedPath, true, none, false⟩ :
            FixResult) ::
          (applyFileFixes (lines.set (broken.link.line - 1) u) rest).2) := by
  have hbool : (decide (broken.link.line = 0) ||
      decide (lines.length ≤ broken.link.line - 1)) = false := by
    simp only [Bool.or_eq_false_iff, decide_eq_false_iff_not]
    omega
  rw [applyFileFixes]
  rw [hbool]
  simp only [Bool.false_eq_true, if_false, hrep]

theorem applyFixesGroups_single (projectRoot sourceFile content : String)
    (fileFixes : List (ValidationResult × FixSuggestion)) (fsys : List (String × String))
    (hread : fsRead fsys (joinPaths projectRoot sourceFile) = some content) :
    applyFixesGroups projectRoot [(sourceFile, fileFixes)] fsys =
      some ((applyFileFixes (splitStr content '\n')
          (sortDescNat (fun f => f.1.link.line) fileFixes)).2,
        fsWrite fsys (joinPaths projectRoot sourceFile)
          (joinWithNewline (applyFileFixes (splitStr content '\n')
            (sortDescNat (fun f => f.1.link.line) fileFixes)).1),
        [(joinPaths projectRoot sourceFile,
          joinWithNewline (applyFileFixes (splitStr content '\n')
            (sortDescNat (fun f => f.1.link.line) fileFixes)).1)]) := by
  rw [applyFixesGroups, hread]
  simp only []
  rw [show applyFixesGroups projectRoot [] (fsWrite fsys (joinPaths projectRoot sourceFile)
    (joinWithNewline (applyFileFixes (splitStr content '\n')
      (sortDescNat (fun f => f.1.link.line) fileFixes)).1)) =
    some ([], fsWrite fsys (joinPaths projectRoot sourceFile)
      (joinWithNewline (applyFileFixes (splitStr content '\n')
        (sortDescNat (fun f => f.1.link.line) fileFixes)).1), []) from rfl]
  simp

/-- C4: `applyFixes` on two fixes for two different lines of one file —
the file is rewritten once (one trace entry), the fixes are processed by
descending line number (the higher line's result first), each target line
becomes the `replaceLink` result and contains the new `](target)` text,
and every other line is byte-identical to the original. -/
theorem c4_applyFixes_two_lines (projectRoot sourceFile content : String)
    (fsys : List (String × String)) (b1 b2 : ValidationResult) (s1 s2 : FixSuggestion)
    (u1 u2 : String)
    (hsf1 : b1.sourceFile = sourceFile) (hsf2 : b2.sourceFile = sourceFile)
    (hread : fsRead fsys (joinPaths projectRoot sourceFile) = some content)
    (hpos : 1 ≤ b1.link.line) (hlt : b1.link.line < b2.link.line)
    (hle : b2.link.line ≤ (splitStr content '\n').length)
    (hr1 : replaceLink ((splitStr content '\n').getD (b1.link.line - 1) "") b1.link
      (newTargetOf b1 s1) = some u1)
    (hr2 : replaceLink ((splitStr content '\n').getD (b2.link.line - 1) "") b2.link
      (newTargetOf b2 s2) = some u2) :
    applyFixes [(b1, s1), (b2, s2)] projectRoot fsys =
      some ([⟨b2.sourceFile, b2.link, s2.suggestedPath, true, none, false⟩,
             ⟨b1.sourceFile, b1.link, s1.suggestedPath, true, none, false⟩],
        fsWrite fsys (joinPaths projectRoot sourceFile)
          (joinWithNewline (((splitStr content '\n').set (b2.link.line - 1) u2).set
            (b1.link.line - 1) u1)),
        [(joinPaths projectRoot sourceFile,
          joinWithNewline (((splitStr content '\n').set (b2.link.line - 1) u2).set
            (b1.link.line - 1) u1))]) ∧
    (∀ i, i ≠ b1.link.line - 1 → i ≠ b2.link.line - 1 →
      (((splitStr content '\n').set (b2.link.line - 1) u2).set
        (b1.link.line - 1) u1).getD i "" = (splitStr content '\n').getD i "") ∧
    (((splitStr content '\n').set (b2.link.line - 1) u2).set
      (b1.link.line - 1) u1).getD (b1.link.line - 1) "" = u1 ∧
    (((splitStr content '\n').set (b2.link.line - 1) u2).set
      (b1.link.line - 1) u1).getD (b2.link.line - 1) "" = u2 ∧
    (∃ pre post, u1.data = pre ++ ("](" ++ newTargetOf b1 s1 ++ ")").data ++ post) ∧
    (∃ pre post, u2.data = pre ++ ("](" ++ newTargetOf b2 s2 ++ ")").data ++ post) := by
  have hne12 : b1.link.line - 1 ≠ b2.link.line - 1 := by omega
  have hgroup : groupByFile [(b1, s1), (b2, s2)] = [(sourceFile, [(b1, s1), (b2, s2)])] := by
    simp [groupByFile, upsertFix, hsf1, hsf2]
  have hnotle : ¬(b2.link.line ≤ b1.link.line) := by omega
  have hsort : sortDescNat (fun f : ValidationResult × FixSuggestion => f.1.link.line)
      [(b1, s1), (b2, s2)] = [(b2, s2), (b1, s1)] := by
    simp [sortDescNat, insertDescNat, hnotle]
  have hr1' : replaceLink (((splitStr content '\n').set (b2.link.line - 1) u2).getD
      (b1.link.line - 1) "") b1.link (newTargetOf b1 s1) = some u1 := by
    rw [List.getD_eq_getElem?_getD, List.getElem?_set_ne (by omega),
      ← List.getD_eq_getElem?_getD]
    exact hr1
  have happly : applyFileFixes (splitStr content '\n') [(b2, s2), (b1, s1)] =
      ((((splitStr content '\n').set (b2.link.line - 1) u2).set (b1.link.line - 1) u1),
        [⟨b2.sourceFile, b2.link, s2.suggestedPath, true, none, false⟩,
         ⟨b1.sourceFile, b1.link, s1.suggestedPath, true, none, false⟩]) := by
    rw [applyFileFixes_cons_success (splitStr content '\n') b2 s2 [(b1, s1)] u2
      (by omega) (by omega) hr2]
    rw [applyFileFixes_cons_success ((splitStr content '\n').set (b2.link.line - 1) u2)
      b1 s1 [] u1 hpos (by rw [List.length_set]; omega) hr1']
    rfl
  refine ⟨?_, ?_, ?_, ?_, ?_, ?_⟩
  · rw [applyFixes, hgroup, applyFixesGroups_single projectRoot sourceFile content _ fsys hread,
      hsort, happly]
  · intro i hi1 hi2
    rw [List.getD_eq_getElem?_getD, List.getElem?_set_ne (fun he => hi1 he.symm),
      List.getElem?_set_ne (fun he => hi2 he.symm), ← List.getD_eq_getElem?_getD]
  · rw [List.getD_eq_getElem?_getD, List.getElem?_set_self (by rw [List.length_set]; omega)]
    rfl
  · rw [List.getD_eq_getElem?_getD, List.getElem?_set_ne hne12,
      List.getElem?_set_self (by omega)]
    rfl
  · exact replaceLink_contains _ _ _ _ hr1
  · exact replaceLink_contains _ _ _ _ hr2

/-- Fixture for the two-line fix batch: first broken link. -/
def fixtureTwoA : ValidationResult :=
  ⟨"docs/a.md", ⟨"[a](./x.md)", "a", "./x.md", none, 1, 1, LinkType.internal⟩,
    VStatus.broken, some "docs/x.md", some "e"⟩

/-- Fixture for the two-line fix batch: second broken link. -/
def fixtureTwoB : ValidationResult :=
  ⟨"docs/a.md", ⟨"[b](./y.md)", "b", "./y.md", none, 2, 1, LinkType.internal⟩,
    VStatus.broken, some "docs/y.md", some "e"⟩

/-- C4 witness: the theorem applied to a three-line file with broken links
on lines 1 and 2. -/
theorem c4_applyFixes_two_lines_witness :
    fsRead [("root/docs/a.md", "[a](./x.md)\n[b](./y.md)\nplain")]
        (joinPaths "root" "docs/a.md") = some "[a](./x.md)\n[b](./y.md)\nplain" ∧
    fixtureTwoA.link.line < fixtureTwoB.link.line ∧
    applyFixes [(fixtureTwoA, ⟨Confidence.medium, "docs/x2.md", "r", none⟩),
        (fixtureTwoB, ⟨Confidence.medium, "docs/y2.md", "r", none⟩)] "root"
        [("root/docs/a.md", "[a](./x.md)\n[b](./y.md)\nplain")] =
      some ([⟨"docs/a.md", ⟨"[b](./y.md)", "b", "./y.md", none, 2, 1, LinkType.internal⟩,
              "docs/y2.md", true, none, false⟩,
             ⟨"docs/a.md", ⟨"[a](./x.md)", "a", "./x.md", none, 1, 1, LinkType.internal⟩,
              "docs/x2.md", true, none, false⟩],
        fsWrite [("root/docs/a.md", "[a](./x.md)\n[b](./y.md)\nplain")]
          (joinPaths "root" "docs/a.md")
          (joinWithNewline (((splitStr "[a](./x.md)\n[b](./y.md)\nplain" '\n').set 1
            "[b](./y2.md)").set 0 "[a](./x2.md)")),
        [(joinPaths "root" "docs/a.md",
          joinWithNewline (((splitStr "[a](./x.md)\n[b](./y.md)\nplain" '\n').set 1
            "[b](./y2.md)").set 0 "[a](./x2.md)"))]) := by
  refine ⟨by decide, by decide, ?_⟩
  exact (c4_applyFixes_two_lines "root" "docs/a.md" "[a](./x.md)\n[b](./y.md)\nplain"
    [("root/docs/a.md", "[a](./x.md)\n[b](./y.md)\nplain")]
    fixtureTwoA fixtureTwoB ⟨Confidence.medium, "docs/x2.md", "r", none⟩
    ⟨Confidence.medium, "docs/y2.md", "r", none⟩ "[a](./x2.md)" "[b](./y2.md)"
    (by decide) (by decide) (by decide) (by decide) (by decide) (by decide)
    (by decide) (by decide)).1

/-! ## Navigation-tree parser (`parsers/summary.ts`, C9)

The imperative algorithm mutates `children` arrays of entries already
placed in the tree; the embedding defers each attachment to the moment the
entry leaves the ancestor stack (when a later entry's depth pops it, or at
end of input), which yields the same tree: an entry is appended to its
creation-time parent — the frame directly below it — in creation order.
The JS depth-0 branch (reset the stack, push to `entries`) coincides with
popping every frame, since every depth is `≥ 0`. -/

/-- A navigation-tree node. -/
inductive SummaryEntry where
  | mk (title path : String) (line depth : Nat) (children : List SummaryEntry)

/-- Title accessor. -/
def SummaryEntry.title : SummaryEntry → String
  | .mk t _ _ _ _ => t

/-- Path accessor. -/
def SummaryEntry.path : SummaryEntry → String
  | .mk _ p _ _ _ => p

/-- Line accessor. -/
def SummaryEntry.line : SummaryEntry → Nat
  | .mk _ _ ln _ _ => ln

/-- Depth accessor. -/
def SummaryEntry.depth : SummaryEntry → Nat
  | .mk _ _ _ d _ => d

/-- Children accessor. -/
def SummaryEntry.children : SummaryEntry → List SummaryEntry
  | .mk _ _ _ _ cs => cs

/-- The scalar data of one matched list item. -/
structure SummaryItem where
  title : String
  path : String
  line : Nat
  depth : Nat
deriving DecidableEq

/-- The scalar data of a node. -/
def SummaryEntry.item : SummaryEntry → SummaryItem
  | .mk t p ln d _ => ⟨t, p, ln, d⟩

/-- Match of the entry regex `^(\s*)[\*\-]\s+\[([^\]]+)\]\(([^)]+)\)`:
indentation width, raw title and raw path. -/
def lineEntry (line : String) : Option (Nat × String × String) :=
  let cs := line.data
  let indent := cs.takeWhile isJsSpace
  match cs.drop indent.length with
  | [] => none
  | b :: rest =>
    if b = '*' ∨ b = '-' then
      let sp := rest.takeWhile isJsSpace
      if sp.length = 0 then none
      else
        match rest.drop sp.length with
        | '[' :: rest2 =>
          let title := rest2.takeWhile (fun c => c != ']')
          if title.length = 0 then none
          else
            match rest2.drop title.length with
            | ']' :: '(' :: rest3 =>
              let path := rest3.takeWhile (fun c => c != ')')
              if path.length = 0 then none
              else
                match rest3.drop path.length with
                | ')' :: _ => some (indent.length, String.mk title, String.mk path)
                | _ => none
            | _ => none
        | _ => none
    else none

/-- The matched items of the line sequence, with 1-based line numbers and
`depth = indentation / 2`. -/
def summaryItemsAux : Nat → List String → List SummaryItem
  | _, [] => []
  | ln, line :: rest =>
    match lineEntry line with
    | some e =>
      ⟨jsTrim e.2.1, cleanLinkPath (jsTrim e.2.2), ln, e.1 / 2⟩ :: summaryItemsAux (ln + 1) rest
    | none => summaryItemsAux (ln + 1) rest

/-- All matched items of a summary file. -/
def summaryItems (content : String) : List SummaryItem :=
  summaryItemsAux 1 (splitStr content '\n')

/-- Close a stack frame into a finished node. -/
def finalizeFrame (f : SummaryItem × List SummaryEntry) : SummaryEntry :=
  .mk f.1.title f.1.path f.1.line f.1.depth f.2

/-- Pop every frame of depth `≥ d`, attaching each closed node to the frame
below it (or to the root list when none is left); the stack is head-first
and the fuel is its length. -/
def popGEAux : Nat → Nat → List SummaryEntry → List (SummaryItem × List SummaryEntry) →
    List SummaryEntry × List (SummaryItem × List SummaryEntry)
  | _, _, roots, [] => (roots, [])
  | 0, _, roots, stack => (roots, stack)
  | fuel + 1, d, roots, f :: fs =>
    if d ≤ f.1.depth then
      match fs with
      | g :: gs => popGEAux fuel d roots ((g.1, g.2 ++ [finalizeFrame f]) :: gs)
      | [] => (roots ++ [finalizeFrame f], [])
    else (roots, f :: fs)

/-- Pop every frame of depth `≥ d`. -/
def popGE (d : Nat) (roots : List SummaryEntry) (stack : List (SummaryItem × List SummaryEntry)) :
    List SummaryEntry × List (SummaryItem × List SummaryEntry) :=
  popGEAux stack.length d roots stack

/-- One item of the stack algorithm: pop frames of depth `≥` the item's
depth, then open a frame for the item. -/
def buildStep (st : List SummaryEntry × List (SummaryItem × List SummaryEntry))
    (item : SummaryItem) : List SummaryEntry × List (SummaryItem × List SummaryEntry) :=
  let p := popGE item.depth st.1 st.2
  (p.1, (item, []) :: p.2)

/-- The parsed summary: entry forest and the flat path list. -/
structure SummaryStructure where
  entries : List SummaryEntry
  allPaths : List String

/-- `parseSummary` from `link-checker/parsers/summary.ts`. -/
def parseSummary (content : String) : SummaryStructure :=
  let items := summaryItems content
  let st := items.foldl buildStep ([], [])
  let fin := popGE 0 st.1 st.2
  { entries := fin.1, allPaths := items.map (fun it => it.path) }

/-! ### C9: every node hangs below the nearest preceding shallower node -/

/-- The line of the nearest preceding item of strictly smaller depth (the
last such item in file order), if any. -/
def specParentLine (items : List SummaryItem) (c : SummaryItem) : Option Nat :=
  ((items.filter (fun it => it.line < c.line && it.depth < c.depth)).getLast?).map
    (fun it => it.line)

/-- A well-attached subtree: every child is strictly deeper than its
parent, and the parent is the nearest preceding item of strictly smaller
depth (its line is the `specParentLine` of the child). -/
inductive GoodEntry (items : List SummaryItem) : SummaryEntry → Prop where
  | mk : ∀ (t p : String) (ln d : Nat) (cs : List SummaryEntry),
      (∀ c ∈ cs, d < c.depth) →
      (∀ c ∈ cs, specParentLine items c.item = some ln) →
      (∀ c ∈ cs, GoodEntry items c) →
      GoodEntry items (.mk t p ln d cs)

theorem summaryItemsAux_lines (ls : List String) :
    ∀ n, (∀ x ∈ summaryItemsAux n ls, n ≤ x.line) ∧
      List.Pairwise (fun a b : SummaryItem => a.line < b.line) (summaryItemsAux n ls) := by
  induction ls with
  | nil =>
    intro n
    refine ⟨?_, ?_⟩
    · intro x hx
      cases hx
    · exact List.Pairwise.nil
  | cons line rest ih =>
    intro n
    rw [summaryItemsAux]
    cases lineEntry line with
    | some e =>
      simp only []
      obtain ⟨ihb, ihp⟩ := ih (n + 1)
      constructor
      · intro x hx
        rw [List.mem_cons] at hx
        rcases hx with hx | hx
        · rw [hx]
        · exact Nat.le_of_succ_le (ihb x hx)
      · rw [List.pairwise_cons]
        refine ⟨?_, ihp⟩
        intro x hx
        exact Nat.lt_of_succ_le (ihb x hx)
    | none =>
      simp only []
      obtain ⟨ihb, ihp⟩ := ih (n + 1)
      exact ⟨fun x hx => Nat.le_of_succ_le (ihb x hx), ihp⟩

theorem summaryItems_sorted (content : String) :
    List.Pairwise (fun a b : SummaryItem => a.line < b.line) (summaryItems content) :=
  (summaryItemsAux_lines (splitStr content '\n') 1).2

theorem chain'_mono_mem {α : Type} {R S : α → α → Prop} (l : List α)
    (h : ∀ a ∈ l, ∀ b ∈ l, R a b → S a b) (hc : List.Chain' R l) : List.Chain' S l := by
  induction l with
  | nil => exact List.chain'_nil
  | cons a t ih =>
    rw [List.chain'_cons'] at hc ⊢
    constructor
    · intro y hy
      have hyt : y ∈ t := List.mem_of_mem_head? hy
      exact h a (by simp) y (by simp [hyt]) (hc.1 y hy)
    · exact ih (fun x hx y hy => h x (by simp [hx]) y (by simp [hy])) hc.2

theorem sorted_filter_getLast (p : SummaryItem → Bool) (items : List SummaryItem)
    (hs : List.Pairwise (fun a b : SummaryItem => a.line < b.line) items)
    (a : SummaryItem) (ha : a ∈ items) (hpa : p a = true)
    (hmax : ∀ b ∈ items, p b = true → b.line ≤ a.line) :
    (items.filter p).getLast? = some a := by
  induction items with
  | nil => cases ha
  | cons i rest ih =>
    rw [List.pairwise_cons] at hs
    rw [List.mem_cons] at ha
    by_cases harest : a ∈ rest
    · have hne : (rest.filter p) ≠ [] := by
        intro hempty
        have := List.mem_filter.mpr ⟨harest, hpa⟩
        rw [hempty] at this
        cases this
      have htail : (rest.filter p).getLast? = some a :=
        ih hs.2 harest (fun b hb hpb => hmax b (by simp [hb]) hpb)
      rw [List.filter_cons]
      by_cases hpi : p i = true
      · rw [if_pos hpi]
        cases hfr : rest.filter p with
        | nil => exact absurd hfr hne
        | cons z zs =>
          rw [List.getLast?_cons_cons]
          rw [hfr] at htail
          exact htail
      · rw [if_neg hpi]
        exact htail
    · have hai : a = i := by
        rcases ha with ha | ha
        · exact ha
        · exact absurd ha harest
      subst hai
      have hrestnone : rest.filter p = [] := by
        rw [List.filter_eq_nil_iff]
        intro b hb
        intro hpb
        have h1 := hmax b (by simp [hb]) hpb
        have h2 := hs.1 b hb
        omega
      rw [List.filter_cons, if_pos hpa, hrestnone]
      rfl

/-- A stack frame: an open item and the children collected for it so far. -/
abbrev SumFrame := SummaryItem × List SummaryEntry

/-- The region condition between a frame `u` and the frame `l` directly
below it: every processed item strictly between `l`'s line and `u`'s line
(inclusive) is at least as deep as `u`. -/
def FrameRel (processed : List SummaryItem) (u l : SumFrame) : Prop :=
  ∀ x ∈ processed, l.1.line < x.line → x.line ≤ u.1.line → u.1.depth ≤ x.depth

/-- The loop invariant of the stack algorithm, over the items already
consumed (`processed`). -/
structure BuildInv (items processed : List SummaryItem) (roots : List SummaryEntry)
    (stack : List SumFrame) : Prop where
  lineChain : List.Chain' (fun u l : SumFrame => l.1.line < u.1.line) stack
  depthChain : List.Chain' (fun u l : SumFrame => l.1.depth < u.1.depth) stack
  framesProc : ∀ f ∈ stack, f.1 ∈ processed
  procItems : ∀ x ∈ processed, x ∈ items
  regionChain : List.Chain' (FrameRel processed) stack
  bottomB : ∀ b, stack.getLast? = some b → ∀ x ∈ processed, x.line ≤ b.1.line →
      b.1.depth ≤ x.depth
  framesGood : ∀ f ∈ stack, (∀ c ∈ f.2, f.1.depth < c.depth) ∧
      (∀ c ∈ f.2, specParentLine items c.item = some f.1.line) ∧
      (∀ c ∈ f.2, GoodEntry items c)
  rootsGood : ∀ r ∈ roots, GoodEntry items r ∧ specParentLine items r.item = none

theorem popGEAux_last (fuel d : Nat) (roots : List SummaryEntry) (f : SumFrame) :
    popGEAux (fuel + 1) d roots [f] =
      if d ≤ f.1.depth then (roots ++ [finalizeFrame f], []) else (roots, [f]) := rfl

theorem popGEAux_cons2 (fuel d : Nat) (roots : List SummaryEntry) (f g : SumFrame)
    (gs : List SumFrame) :
    popGEAux (fuel + 1) d roots (f :: g :: gs) =
      if d ≤ f.1.depth then popGEAux fuel d roots ((g.1, g.2 ++ [finalizeFrame f]) :: gs)
      else (roots, f :: g :: gs) := rfl

theorem mem_of_getLast_opt {α : Type} : ∀ (l : List α) (a : α), l.getLast? = some a → a ∈ l := by
  intro l
  induction l with
  | nil => intro a h; cases h
  | cons x xs ih =>
    intro a h
    cases xs with
    | nil =>
      have hxa : x = a := by simpa using h
      rw [List.mem_singleton]
      exact hxa.symm
    | cons z zs =>
      rw [List.getLast?_cons_cons] at h
      exact List.mem_cons_of_mem _ (ih a h)

theorem buildInv_init (items : List SummaryItem) : BuildInv items [] [] [] := by
  refine ⟨List.chain'_nil, List.chain'_nil, ?_, ?_, List.chain'_nil, ?_, ?_, ?_⟩
  · intro f hf; cases hf
  · intro x hx; cases hx
  · intro b hb; cases hb
  · intro f hf; cases hf
  · intro r hr; cases hr

theorem popGEAux_spec (items processed : List SummaryItem)
    (hsorted : List.Pairwise (fun a b : SummaryItem => a.line < b.line) items)
    (hpref : ∀ b ∈ items, ∀ u ∈ processed, b.line < u.line → b ∈ processed) (d : Nat) :
    ∀ (fuel : Nat) (roots : List SummaryEntry) (stack : List SumFrame),
    stack.length ≤ fuel →
    BuildInv items processed roots stack →
    (∀ t ∈ stack.head?, ∀ x ∈ processed, t.1.line < x.line → d ≤ x.depth) →
    (stack = [] → ∀ x ∈ processed, d ≤ x.depth) →
    BuildInv items processed (popGEAux fuel d roots stack).1 (popGEAux fuel d roots stack).2 ∧
    (∀ t ∈ (popGEAux fuel d roots stack).2.head?, t.1.depth < d) ∧
    ((popGEAux fuel d roots stack).2 = [] → ∀ x ∈ processed, d ≤ x.depth) ∧
    (∀ t ∈ (popGEAux fuel d roots stack).2.head?, ∀ x ∈ processed,
      t.1.line < x.line → d ≤ x.depth) := by
  intro fuel
  induction fuel with
  | zero =>
    intro roots stack hlen hinv hcur hnil
    have hstack : stack = [] := List.length_eq_zero.mp (Nat.le_zero.mp hlen)
    subst hstack
    refine ⟨hinv, ?_, ?_, ?_⟩
    · intro t ht; cases ht
    · intro _; exact hnil rfl
    · intro t ht; cases ht
  | succ fuel ih =>
    intro roots stack hlen hinv hcur hnil
    cases stack with
    | nil =>
      refine ⟨hinv, ?_, ?_, ?_⟩
      · intro t ht; cases ht
      · intro _; exact hnil rfl
      · intro t ht; cases ht
    | cons f fs =>
      cases fs with
      | nil =>
        rw [popGEAux_last]
        by_cases hd : d ≤ f.1.depth
        · rw [if_pos hd]
          obtain ⟨hlc, hdc, hfp, hpi, hrc, hbb, hfg, hrg⟩ := hinv
          have hf1proc : f.1 ∈ processed := hfp f (by simp)
          have hbot : ∀ x ∈ processed, x.line ≤ f.1.line → f.1.depth ≤ x.depth :=
            hbb f rfl
          have hcf : ∀ x ∈ processed, f.1.line < x.line → d ≤ x.depth :=
            fun x hx h => hcur f (Option.mem_def.mpr rfl) x hx h
          refine ⟨⟨List.chain'_nil, List.chain'_nil, ?_, hpi, List.chain'_nil, ?_, ?_, ?_⟩,
            ?_, ?_, ?_⟩
          · intro q hq; cases hq
          · intro b hb; cases hb
          · intro q hq; cases hq
          · intro r hr
            rcases List.mem_append.mp hr with hr | hr
            · exact hrg r hr
            · rw [List.mem_singleton] at hr
              subst hr
              obtain ⟨hg1, hg2, hg3⟩ := hfg f (by simp)
              constructor
              · exact GoodEntry.mk f.1.title f.1.path f.1.line f.1.depth f.2 hg1 hg2 hg3
              · have hfilt :
                    items.filter (fun it => it.line < f.1.line && it.depth < f.1.depth)
                      = [] := by
                  rw [List.filter_eq_nil_iff]
                  intro x hx hpx
                  simp only [Bool.and_eq_true, decide_eq_true_eq] at hpx
                  have hxproc : x ∈ processed := hpref x hx f.1 hf1proc hpx.1
                  have hxb := hbot x hxproc (Nat.le_of_lt hpx.1)
                  omega
                show ((items.filter
                    (fun it => it.line < f.1.line && it.depth < f.1.depth)).getLast?).map
                    (fun it => it.line) = none
                rw [hfilt]
                rfl
          · intro t ht; cases ht
          · intro _ x hx
            by_cases hxl : x.line ≤ f.1.line
            · exact le_trans hd (hbot x hx hxl)
            · exact hcf x hx (Nat.lt_of_not_le hxl)
          · intro t ht; cases ht
        · rw [if_neg hd]
          refine ⟨hinv, ?_, ?_, ?_⟩
          · intro t ht
            simp only [List.head?_cons, Option.mem_def, Option.some.injEq] at ht
            subst ht
            exact Nat.lt_of_not_le hd
          · intro h; exact absurd h (List.cons_ne_nil _ _)
          · intro t ht
            exact hcur t ht
      | cons g gs =>
        rw [popGEAux_cons2]
        by_cases hd : d ≤ f.1.depth
        · rw [if_pos hd]
          obtain ⟨hlc, hdc, hfp, hpi, hrc, hbb, hfg, hrg⟩ := hinv
          have hfm : f ∈ f :: g :: gs := by simp
          have hgm : g ∈ f :: g :: gs := by simp
          have hf1proc : f.1 ∈ processed := hfp f hfm
          have hg1proc : g.1 ∈ processed := hfp g hgm
          have hlfg : g.1.line < f.1.line := (List.chain'_cons.mp hlc).1
          have hdfg : g.1.depth < f.1.depth := (List.chain'_cons.mp hdc).1
          have hrfg : FrameRel processed f g := (List.chain'_cons.mp hrc).1
          have hcf : ∀ x ∈ processed, f.1.line < x.line → d ≤ x.depth :=
            fun x hx h => hcur f (Option.mem_def.mpr rfl) x hx h
          have hlen₂ : ((g.1, g.2 ++ [finalizeFrame f]) :: gs).length ≤ fuel := by
            simp only [List.length_cons] at hlen ⊢
            omega
          have hgl : (items.filter
              (fun it => it.line < f.1.line && it.depth < f.1.depth)).getLast?
              = some g.1 := by
            apply sorted_filter_getLast _ items hsorted g.1 (hpi g.1 hg1proc)
            · simp only [Bool.and_eq_true, decide_eq_true_eq]
              exact ⟨hlfg, hdfg⟩
            · intro b hb hpb
              simp only [Bool.and_eq_true, decide_eq_true_eq] at hpb
              by_contra hgt
              push_neg at hgt
              have hbproc : b ∈ processed := hpref b hb f.1 hf1proc hpb.1
              have := hrfg b hbproc hgt (Nat.le_of_lt hpb.1)
              omega
          have hspec : specParentLine items (finalizeFrame f).item = some g.1.line := by
            show ((items.filter
                (fun it => it.line < f.1.line && it.depth < f.1.depth)).getLast?).map
                (fun it => it.line) = some g.1.line
            rw [hgl]
            rfl
          have hlc₂ : List.Chain' (fun u l : SumFrame => l.1.line < u.1.line)
              ((g.1, g.2 ++ [finalizeFrame f]) :: gs) := by
            have h2 := (List.chain'_cons.mp hlc).2
            rw [List.chain'_cons'] at h2 ⊢
            exact ⟨h2.1, h2.2⟩
          have hdc₂ : List.Chain' (fun u l : SumFrame => l.1.depth < u.1.depth)
              ((g.1, g.2 ++ [finalizeFrame f]) :: gs) := by
            have h2 := (List.chain'_cons.mp hdc).2
            rw [List.chain'_cons'] at h2 ⊢
            exact ⟨h2.1, h2.2⟩
          have hrc₂ : List.Chain' (FrameRel processed)
              ((g.1, g.2 ++ [finalizeFrame f]) :: gs) := by
            have h2 := (List.chain'_cons.mp hrc).2
            rw [List.chain'_cons'] at h2 ⊢
            exact ⟨h2.1, h2.2⟩
          have hfp₂ : ∀ q ∈ (g.1, g.2 ++ [finalizeFrame f]) :: gs, q.1 ∈ processed := by
            intro q hq
            rcases List.mem_cons.mp hq with hq | hq
            · rw [hq]; exact hg1proc
            · exact hfp q (by simp [hq])
          have hbb₂ : ∀ b, ((g.1, g.2 ++ [finalizeFrame f]) :: gs).getLast? = some b →
              ∀ x ∈ processed, x.line ≤ b.1.line → b.1.depth ≤ x.depth := by
            intro b hb x hx hxl
            cases gs with
            | nil =>
              have hbg : (g.1, g.2 ++ [finalizeFrame f]) = b := by simpa using hb
              subst hbg
              exact hbb g rfl x hx hxl
            | cons q qs =>
              rw [List.getLast?_cons_cons] at hb
              have hb' : (f :: g :: q :: qs).getLast? = some b := by
                rw [List.getLast?_cons_cons, List.getLast?_cons_cons]
                exact hb
              exact hbb b hb' x hx hxl
          have hfg₂ : ∀ q ∈ (g.1, g.2 ++ [finalizeFrame f]) :: gs,
              (∀ c ∈ q.2, q.1.depth < c.depth) ∧
              (∀ c ∈ q.2, specParentLine items c.item = some q.1.line) ∧
              (∀ c ∈ q.2, GoodEntry items c) := by
            intro q hq
            rcases List.mem_cons.mp hq with hq | hq
            · subst hq
              obtain ⟨hgc1, hgc2, hgc3⟩ := hfg g hgm
              obtain ⟨hfc1, hfc2, hfc3⟩ := hfg f hfm
              refine ⟨?_, ?_, ?_⟩
              · intro c hc
                rcases List.mem_append.mp hc with hc | hc
                · exact hgc1 c hc
                · rw [List.mem_singleton] at hc
                  subst hc
                  exact hdfg
              · intro c hc
                rcases List.mem_append.mp hc with hc | hc
                · exact hgc2 c hc
                · rw [List.mem_singleton] at hc
                  subst hc
                  exact hspec
              · intro c hc
                rcases List.mem_append.mp hc with hc | hc
                · exact hgc3 c hc
                · rw [List.mem_singleton] at hc
                  subst hc
                  exact GoodEntry.mk f.1.title f.1.path f.1.line f.1.depth f.2 hfc1 hfc2 hfc3
            · exact hfg q (by simp [hq])
          have hcur₂ : ∀ t ∈ ((g.1, g.2 ++ [finalizeFrame f]) :: gs).head?,
              ∀ x ∈ processed, t.1.line < x.line → d ≤ x.depth := by
            intro t ht x hx hlt
            simp only [List.head?_cons, Option.mem_def, Option.some.injEq] at ht
            subst ht
            by_cases hxf : x.line ≤ f.1.line
            · exact le_trans hd (hrfg x hx hlt hxf)
            · exact hcf x hx (Nat.lt_of_not_le hxf)
          have hnil₂ : (g.1, g.2 ++ [finalizeFrame f]) :: gs = [] →
              ∀ x ∈ processed, d ≤ x.depth :=
            fun h => absurd h (List.cons_ne_nil _ _)
          exact ih roots ((g.1, g.2 ++ [finalizeFrame f]) :: gs) hlen₂
            ⟨hlc₂, hdc₂, hfp₂, hpi, hrc₂, hbb₂, hfg₂, hrg⟩ hcur₂ hnil₂
        · rw [if_neg hd]
          refine ⟨hinv, ?_, ?_, ?_⟩
          · intro t ht
            simp only [List.head?_cons, Option.mem_def, Option.some.injEq] at ht
            subst ht
            exact Nat.lt_of_not_le hd
          · intro h; exact absurd h (List.cons_ne_nil _ _)
          · intro t ht
            exact hcur t ht

theorem buildStep_inv (items : List SummaryItem)
    (hsorted : List.Pairwise (fun a b : SummaryItem => a.line < b.line) items)
    (processed : List SummaryItem) (y : SummaryItem) (rest : List SummaryItem)
    (hsplit : items = processed ++ y :: rest)
    (st : List SummaryEntry × List SumFrame)
    (hinv : BuildInv items processed st.1 st.2)
    (htop : ∀ t ∈ st.2.head?, ∀ x ∈ processed, x.line ≤ t.1.line)
    (hemp : st.2 = [] → processed = []) :
    BuildInv items (processed ++ [y]) (buildStep st y).1 (buildStep st y).2 ∧
    (∀ t ∈ (buildStep st y).2.head?, ∀ x ∈ processed ++ [y], x.line ≤ t.1.line) ∧
    ((buildStep st y).2 = [] → processed ++ [y] = []) := by
  have hy_items : y ∈ items := by
    rw [hsplit]
    exact List.mem_append_right _ (List.mem_cons_self _ _)
  have hpw : List.Pairwise (fun a b : SummaryItem => a.line < b.line)
      (processed ++ y :: rest) := by
    rw [← hsplit]
    exact hsorted
  rw [List.pairwise_append] at hpw
  have hprocLt : ∀ u ∈ processed, u.line < y.line :=
    fun u hu => hpw.2.2 u hu y (List.mem_cons_self _ _)
  have hpref : ∀ b ∈ items, ∀ u ∈ processed, b.line < u.line → b ∈ processed := by
    intro b hb u hu hlt
    rw [hsplit] at hb
    rcases List.mem_append.mp hb with hb | hb
    · exact hb
    · exfalso
      have := hpw.2.2 u hu b hb
      omega
  have hcur : ∀ t ∈ st.2.head?, ∀ x ∈ processed, t.1.line < x.line → y.depth ≤ x.depth := by
    intro t ht x hx hlt
    have := htop t ht x hx
    omega
  have hnil : st.2 = [] → ∀ x ∈ processed, y.depth ≤ x.depth := by
    intro h x hx
    rw [hemp h] at hx
    cases hx
  obtain ⟨inv2, h2, h3, h4⟩ := popGEAux_spec items processed hsorted hpref y.depth
    st.2.length st.1 st.2 (Nat.le_refl _) hinv hcur hnil
  have hps : buildStep st y = ((popGEAux st.2.length y.depth st.1 st.2).1,
      (y, ([] : List SummaryEntry)) :: (popGEAux st.2.length y.depth st.1 st.2).2) := rfl
  rw [hps]
  refine ⟨⟨?_, ?_, ?_, ?_, ?_, ?_, ?_, ?_⟩, ?_, ?_⟩
  · rw [List.chain'_cons']
    refine ⟨?_, inv2.lineChain⟩
    intro b hb
    have hbm := List.mem_of_mem_head? hb
    exact hprocLt b.1 (inv2.framesProc b hbm)
  · rw [List.chain'_cons']
    exact ⟨fun b hb => h2 b hb, inv2.depthChain⟩
  · intro fr hfr
    rcases List.mem_cons.mp hfr with hfr | hfr
    · rw [hfr]
      exact List.mem_append_right _ (List.mem_cons_self _ _)
    · exact List.mem_append_left _ (inv2.framesProc fr hfr)
  · intro x hx
    rcases List.mem_append.mp hx with hx | hx
    · exact inv2.procItems x hx
    · rw [List.mem_singleton] at hx
      rw [hx]
      exact hy_items
  · rw [List.chain'_cons']
    constructor
    · intro b hb x hx hlt hle
      rcases List.mem_append.mp hx with hx | hx
      · exact h4 b hb x hx hlt
      · rw [List.mem_singleton] at hx
        subst hx
        exact Nat.le_refl _
    · refine chain'_mono_mem _ ?_ inv2.regionChain
      intro u hu l hl hR x hx hlt hle
      rcases List.mem_append.mp hx with hx | hx
      · exact hR x hx hlt hle
      · rw [List.mem_singleton] at hx
        subst hx
        exfalso
        have hup : u.1 ∈ processed := inv2.framesProc u hu
        have := hprocLt u.1 hup
        omega
  · intro b hb x hx hxl
    cases hq2 : (popGEAux st.2.length y.depth st.1 st.2).2 with
    | nil =>
      rw [hq2] at hb
      have hbg : (y, ([] : List SummaryEntry)) = b := by simpa using hb
      subst hbg
      rcases List.mem_append.mp hx with hx | hx
      · exact h3 hq2 x hx
      · rw [List.mem_singleton] at hx
        subst hx
        exact Nat.le_refl _
    | cons q1 qs =>
      rw [hq2, List.getLast?_cons_cons] at hb
      have hb' : (popGEAux st.2.length y.depth st.1 st.2).2.getLast? = some b := by
        rw [hq2]
        exact hb
      have hbm : b ∈ (popGEAux st.2.length y.depth st.1 st.2).2 :=
        mem_of_getLast_opt _ b hb'
      rcases List.mem_append.mp hx with hx | hx
      · exact inv2.bottomB b hb' x hx hxl
      · rw [List.mem_singleton] at hx
        subst hx
        exfalso
        have hbp : b.1 ∈ processed := inv2.framesProc b hbm
        have := hprocLt b.1 hbp
        omega
  · intro fr hfr
    rcases List.mem_cons.mp hfr with hfr | hfr
    · subst hfr
      refine ⟨?_, ?_, ?_⟩ <;> intro c hc <;> cases hc
    · exact inv2.framesGood fr hfr
  · exact inv2.rootsGood
  · intro t ht x hx
    simp only [List.head?_cons, Option.mem_def, Option.some.injEq] at ht
    subst ht
    rcases List.mem_append.mp hx with hx | hx
    · exact Nat.le_of_lt (hprocLt x hx)
    · rw [List.mem_singleton] at hx
      subst hx
      exact Nat.le_refl _
  · intro h
    exact absurd h (List.cons_ne_nil _ _)

theorem foldl_buildStep_inv (items : List SummaryItem)
    (hsorted : List.Pairwise (fun a b : SummaryItem => a.line < b.line) items) :
    ∀ (rest processed : List SummaryItem) (st : List SummaryEntry × List SumFrame),
    items = processed ++ rest →
    BuildInv items processed st.1 st.2 →
    (∀ t ∈ st.2.head?, ∀ x ∈ processed, x.line ≤ t.1.line) →
    (st.2 = [] → processed = []) →
    BuildInv items (processed ++ rest) (rest.foldl buildStep st).1
        (rest.foldl buildStep st).2 ∧
    (∀ t ∈ (rest.foldl buildStep st).2.head?, ∀ x ∈ processed ++ rest, x.line ≤ t.1.line) ∧
    ((rest.foldl buildStep st).2 = [] → processed ++ rest = []) := by
  intro rest
  induction rest with
  | nil =>
    intro processed st hsplit hinv htop hemp
    simp only [List.foldl_nil, List.append_nil]
    exact ⟨hinv, htop, hemp⟩
  | cons y rest ih =>
    intro processed st hsplit hinv htop hemp
    obtain ⟨hinv₁, htop₁, hemp₁⟩ :=
      buildStep_inv items hsorted processed y rest hsplit st hinv htop hemp
    have hsplit₁ : items = (processed ++ [y]) ++ rest := by
      rw [List.append_assoc]
      exact hsplit
    have hres := ih (processed ++ [y]) (buildStep st y) hsplit₁ hinv₁ htop₁ hemp₁
    rw [List.append_assoc] at hres
    simp only [List.singleton_append] at hres
    simp only [List.foldl_cons]
    exact hres

/-- C9: in the forest returned by `parseSummary`, every list-item entry is
attached as a child of the nearest preceding entry whose depth (indentation
width divided by 2) is strictly less than its own — its `specParentLine` —
and becomes a root exactly when no such preceding entry exists; every
child is strictly deeper than its parent. This holds for every input,
including malformed or inconsistent indentation. -/
theorem c9_parseSummary_tree (content : String) :
    ∀ r ∈ (parseSummary content).entries,
      GoodEntry (summaryItems content) r ∧
      specParentLine (summaryItems content) r.item = none := by
  intro r hr
  have hsorted := summaryItems_sorted content
  obtain ⟨hinv, htop, hemp⟩ := foldl_buildStep_inv (summaryItems content) hsorted
    (summaryItems content) [] (([], []) : List SummaryEntry × List SumFrame) rfl
    (buildInv_init _) (by intro t ht; cases ht) (fun _ => rfl)
  simp only [List.nil_append] at hinv htop hemp
  have hpref : ∀ b ∈ summaryItems content, ∀ u ∈ summaryItems content,
      b.line < u.line → b ∈ summaryItems content := fun b hb _ _ _ => hb
  have hcur0 : ∀ t ∈ ((summaryItems content).foldl buildStep ([], [])).2.head?,
      ∀ x ∈ summaryItems content, t.1.line < x.line → 0 ≤ x.depth :=
    fun _ _ x _ _ => Nat.zero_le _
  have hnil0 : ((summaryItems content).foldl buildStep ([], [])).2 = [] →
      ∀ x ∈ summaryItems content, 0 ≤ x.depth :=
    fun _ x _ => Nat.zero_le _
  obtain ⟨hinv2, _, _, _⟩ := popGEAux_spec (summaryItems content) (summaryItems content)
    hsorted hpref 0 ((summaryItems content).foldl buildStep ([], [])).2.length
    ((summaryItems content).foldl buildStep ([], [])).1
    ((summaryItems content).foldl buildStep ([], [])).2
    (Nat.le_refl _) hinv hcur0 hnil0
  exact hinv2.rootsGood r hr

/-- C9 witness: the theorem applied to a two-entry summary whose second
entry is indented below the first. -/
theorem c9_parseSummary_tree_witness :
    GoodEntry (summaryItems "* [A](a.md)\n  * [B](b.md)")
      (SummaryEntry.mk "A" "a.md" 1 0 [SummaryEntry.mk "B" "b.md" 2 1 []]) ∧
    specParentLine (summaryItems "* [A](a.md)\n  * [B](b.md)")
      (SummaryEntry.mk "A" "a.md" 1 0 [SummaryEntry.mk "B" "b.md" 2 1 []]).item = none :=
  c9_parseSummary_tree "* [A](a.md)\n  * [B](b.md)"
    (SummaryEntry.mk "A" "a.md" 1 0 [SummaryEntry.mk "B" "b.md" 2 1 []])
    (by
      rw [show (parseSummary "* [A](a.md)\n  * [B](b.md)").entries =
          [SummaryEntry.mk "A" "a.md" 1 0 [SummaryEntry.mk "B" "b.md" 2 1 []]] from rfl]
      exact List.mem_cons_self _ _)
